import Mathlib

/-!
# A verification development for the cask storage engine

This file gives a shallow embedding, in Lean 4, of the core of the cask
key-value store (a Bitcask-style append-only log with an in-memory index):

* `src/xxhash.rs` — the 32-bit hash used for hint-file trailers,
* `src/log.rs`    — the segment log: rollover, file-id allocation, segment
  swap, hint-file validation,
* `src/cask.rs`   — the index, `get`/`put`/`delete`, and compaction.

Machine integers are modelled as `Nat` with explicit reduction `% 2^32`
where 32-bit overflow matters (the hash).  Byte sequences are `List Nat`.
On-disk data files are modelled as lists of decoded records together with
the byte positions implied by the record sizes; the in-memory index and the
directory of data files are modelled as association lists.  The `data`
module of the crate (record types and their sizes) is not part of the
sources; its record shapes are modelled from the specification where noted.
-/

namespace Cask

/-! ## 32-bit hashing (`src/xxhash.rs`)

The Rust source binds the reference `XXH32` implementation through FFI and
fixes `SEED = 42`.  Here `XXH32` is the XXHash32 algorithm itself, written
out over byte lists with explicit `% 2^32` arithmetic, and `xxhash32` is
the crate's wrapper around it. -/

/-- 2^32, the modulus for 32-bit arithmetic. -/
def M32 : Nat := 4294967296

def PRIME32_1 : Nat := 2654435761

def PRIME32_2 : Nat := 2246822519

def PRIME32_3 : Nat := 3266489917

def PRIME32_4 : Nat := 668265263

def PRIME32_5 : Nat := 374761393

/-- Rotate a 32-bit value `x < 2^32` left by `r` bits, `0 < r < 32`. -/
def rot32 (x r : Nat) : Nat := ((x <<< r) % M32) ||| (x >>> (32 - r))

/-- A 32-bit little-endian word from four bytes. -/
def u32le (b0 b1 b2 b3 : Nat) : Nat := b0 + 256 * b1 + 65536 * b2 + 16777216 * b3

/-- One XXH32 round on a lane accumulator. -/
def round32 (acc lane : Nat) : Nat :=
  (rot32 ((acc + lane * PRIME32_2) % M32) 13) * PRIME32_1 % M32

/-- Consume 16-byte stripes, updating the four lane accumulators. -/
def stripes : List Nat → Nat × Nat × Nat × Nat → (Nat × Nat × Nat × Nat) × List Nat
  | b0 :: b1 :: b2 :: b3 :: b4 :: b5 :: b6 :: b7 ::
    b8 :: b9 :: b10 :: b11 :: b12 :: b13 :: b14 :: b15 :: rest, (a1, a2, a3, a4) =>
      stripes rest
        (round32 a1 (u32le b0 b1 b2 b3), round32 a2 (u32le b4 b5 b6 b7),
         round32 a3 (u32le b8 b9 b10 b11), round32 a4 (u32le b12 b13 b14 b15))
  | l, acc => (acc, l)

/-- Consume remaining 4-byte words after the stripe phase. -/
def tail4 : List Nat → Nat → Nat × List Nat
  | b0 :: b1 :: b2 :: b3 :: rest, acc =>
      tail4 rest ((rot32 ((acc + u32le b0 b1 b2 b3 * PRIME32_3) % M32) 17) * PRIME32_4 % M32)
  | l, acc => (acc, l)

/-- Consume remaining single bytes. -/
def tail1 : List Nat → Nat → Nat
  | [], acc => acc
  | b :: rest, acc => tail1 rest ((rot32 ((acc + b * PRIME32_5) % M32) 11) * PRIME32_1 % M32)

/-- The XXH32 finalization avalanche. -/
def avalanche32 (h : Nat) : Nat :=
  let h1 := h ^^^ (h >>> 15)
  let h2 := h1 * PRIME32_2 % M32
  let h3 := h2 ^^^ (h2 >>> 13)
  let h4 := h3 * PRIME32_3 % M32
  h4 ^^^ (h4 >>> 16)

/-- The XXHash32 algorithm over a byte sequence with an explicit seed. -/
def XXH32 (input : List Nat) (seed : Nat) : Nat :=
  let len := input.length
  let (acc0, rest) :=
    if 16 ≤ len then
      let (a, r) := stripes input
        ((seed + PRIME32_1 + PRIME32_2) % M32, (seed + PRIME32_2) % M32,
         seed % M32, (seed + (M32 - PRIME32_1)) % M32)
      ((rot32 a.1 1 + rot32 a.2.1 7 + rot32 a.2.2.1 12 + rot32 a.2.2.2 18) % M32, r)
    else
      ((seed + PRIME32_5) % M32, input)
  let acc1 := (acc0 + len) % M32
  let (acc2, rest2) := tail4 rest acc1
  avalanche32 (tail1 rest2 acc2)

/-- The seed the crate passes to XXH32 (`const SEED: u32 = 42` in `src/xxhash.rs`). -/
def SEED : Nat := 42

/-- The crate's hash wrapper (`xxhash32` in `src/xxhash.rs`): hash the first
`length` bytes of `input` with XXH32 under the fixed seed. -/
def xxhash32 (input : List Nat) (length : Nat) : Nat := XXH32 (input.take length) SEED

/-- Read a `u32` little-endian from the first four bytes of a list
(`read_u32::<LittleEndian>` on a byte cursor). -/
def readU32LE : List Nat → Nat
  | b0 :: b1 :: b2 :: b3 :: _ => u32le b0 b1 b2 b3
  | _ => 0

/-- Serialize a value `< 2^32` as four little-endian bytes
(`write_u32::<LittleEndian>`). -/
def toLE4 (n : Nat) : List Nat :=
  [n % 256, n / 256 % 256, n / 65536 % 256, n / 16777216 % 256]

/-! ## Records (`src/data.rs`) -/

/-- Modelled from the spec: the `data` module is absent from the sources; the
spec's Data Model section gives an Entry as `sequence, deleted, key, value`
with a fixed header of checksum (4), sequence (8), key length (2), value
length (4) and flag (1) bytes. -/
structure Entry where
  sequence : Nat
  deleted : Bool
  key : List Nat
  value : List Nat
deriving DecidableEq, Repr

/-- Modelled from the spec: the byte size of an encoded Entry is the 19-byte
header plus the key and value bytes. -/
def Entry.size (e : Entry) : Nat := 19 + e.key.length + e.value.length

/-- A live record (`Entry::new(sequence, key, value)`). -/
def Entry.mkLive (sequence : Nat) (key value : List Nat) : Entry :=
  ⟨sequence, false, key, value⟩

/-- A tombstone record (`Entry::deleted(sequence, key)`); the value is empty. -/
def Entry.mkDeleted (sequence : Nat) (key : List Nat) : Entry :=
  ⟨sequence, true, key, []⟩

/-- Modelled from the spec: a Hint mirrors an Entry without its value —
`sequence, deleted, key, entry_pos, entry_size`. -/
structure Hint where
  sequence : Nat
  deleted : Bool
  key : List Nat
  entry_pos : Nat
  entry_size : Nat
deriving DecidableEq, Repr

/-- The hint describing `e` written at byte position `pos`
(`Hint::new(entry, entry_pos)` and `Hint::from(entry, entry_pos)`). -/
def Hint.ofEntry (e : Entry) (pos : Nat) : Hint :=
  ⟨e.sequence, e.deleted, e.key, pos, e.size⟩

/-! ## Association lists

The in-memory index is a `HashMap<Vec<u8>, IndexEntry>` and the directory of
data files maps file ids to file contents; both are modelled as association
lists with unique keys, with `ainsert` replacing any previous binding. -/

/-- Look up the first binding of `k`. -/
def alookup {α β : Type} [DecidableEq α] (k : α) : List (α × β) → Option β
  | [] => none
  | (k', v) :: rest => if k' = k then some v else alookup k rest

/-- Remove every binding of `k`. -/
def aerase {α β : Type} [DecidableEq α] (k : α) : List (α × β) → List (α × β)
  | [] => []
  | (k', v) :: rest => if k' = k then aerase k rest else (k', v) :: aerase k rest

/-- Bind `k` to `v`, replacing any previous binding. -/
def ainsert {α β : Type} [DecidableEq α] (k : α) (v : β) (m : List (α × β)) : List (α × β) :=
  (k, v) :: aerase k m

/-! ## Data files as byte-addressed record lists

A data file holds its records back to back; the byte position of a record is
the sum of the sizes of the records before it.  `readAt` is the model of
seeking to a byte position and decoding one record (`Log::read_entry`), and
`hintsFrom` enumerates the hints of a file in order (its hint file, or the
`RecreateHints` iterator over its entries). -/

/-- Decode the record starting at byte offset `p` of a file. -/
def readAt : List Entry → Nat → Option Entry
  | [], _ => none
  | e :: es, p => if p = 0 then some e else if e.size ≤ p then readAt es (p - e.size) else none

/-- Total encoded size of a list of records. -/
def sizeSum (l : List Entry) : Nat := (l.map Entry.size).sum

/-- The hints of the records of a file, the first record sitting at byte
position `pos`. -/
def hintsFrom (pos : Nat) : List Entry → List Hint
  | [] => []
  | e :: es => Hint.ofEntry e pos :: hintsFrom (pos + e.size) es

/-- The hints of a whole file (positions start at 0). -/
def hintsOf (l : List Entry) : List Hint := hintsFrom 0 l

/-! ## The index (`Index` in `src/cask.rs`) -/

/-- The payload of the in-memory index (`IndexEntry` in `src/cask.rs`). -/
structure IndexEntry where
  file_id : Nat
  entry_pos : Nat
  entry_size : Nat
  sequence : Nat
deriving DecidableEq, Repr

/-- The in-memory index: key bytes to live location. -/
abbrev Index : Type := List (List Nat × IndexEntry)

/-- The index merge rule (`Index::update` in `src/cask.rs`): an occupied slot
is replaced (or removed, for a tombstone) when its sequence is at most the
hint's; a vacant slot is filled only by a non-tombstone hint. -/
def Index.update (idx : Index) (hint : Hint) (file_id : Nat) : Index :=
  match alookup hint.key idx with
  | some o =>
    if o.sequence ≤ hint.sequence then
      if hint.deleted then aerase hint.key idx
      else ainsert hint.key
        ⟨file_id, hint.entry_pos, hint.entry_size, hint.sequence⟩ idx
    else idx
  | none =>
    if hint.deleted then idx
    else ainsert hint.key ⟨file_id, hint.entry_pos, hint.entry_size, hint.sequence⟩ idx

/-! ## The segment log (`Log` in `src/log.rs`) -/

/-- Default per-segment size threshold (`DEFAULT_SIZE_THRESHOLD`,
`2000 * 1024 * 1024` bytes in `src/log.rs`). -/
def DEFAULT_SIZE_THRESHOLD : Nat := 2000 * 1024 * 1024

/-- The model of `Log`: the sorted list of sealed file ids, the atomic
file-id counter, the active file id, the active writer's byte position and
the size threshold, the data files on disk (file id to decoded records) and
the set of file ids whose hint file is complete (trailer written). -/
structure Log where
  files : List Nat
  current_file_id : Nat
  active_file_id : Nat
  active_pos : Nat
  size_threshold : Nat
  store : List (Nat × List Entry)
  hintFiles : List Nat
deriving DecidableEq

/-- The records of data file `fid` (an absent file reads as empty). -/
def Log.getFile (s : Log) (fid : Nat) : List Entry := (alookup fid s.store).getD []

/-- Allocate a fresh file id (`Log::new_file_id`): bump the atomic counter
and return its new value. -/
def Log.new_file_id (s : Log) : Nat × Log :=
  (s.current_file_id + 1, { s with current_file_id := s.current_file_id + 1 })

/-- Insert into a sorted id list (`Log::add_file` pushes then sorts). -/
def sortedInsert (x : Nat) : List Nat → List Nat
  | [] => [x]
  | y :: r => if x ≤ y then x :: y :: r else y :: sortedInsert x r

/-- Seal the active segment and open a new one (`Log::new_active_writer`):
the active id joins the sealed list and its finished hint file becomes
valid; a fresh id becomes active with an empty data file at position 0. -/
def Log.new_active_writer (s : Log) : Log :=
  let s1 := { s with files := sortedInsert s.active_file_id s.files,
                     hintFiles := s.active_file_id :: s.hintFiles }
  let n := Log.new_file_id s1
  { n.2 with active_file_id := n.1, active_pos := 0, store := ainsert n.1 [] n.2.store }

/-- Append a record (`Log::append_entry`): roll over first when the write
position plus the record size exceeds the threshold, then write at the
active position; returns the file id and byte position written. -/
def Log.append_entry (e : Entry) (s : Log) : (Nat × Nat) × Log :=
  let s1 := if s.size_threshold < s.active_pos + e.size then s.new_active_writer else s
  ((s1.active_file_id, s1.active_pos),
   { s1 with active_pos := s1.active_pos + e.size,
             store := ainsert s1.active_file_id (s1.getFile s1.active_file_id ++ [e]) s1.store })

/-- Read one record (`Log::read_entry`): seek to `pos` in file `fid`. -/
def Log.read_entry (s : Log) (fid pos : Nat) : Option Entry := readAt (s.getFile fid) pos

/-- The hints of file `fid` (`Log::hints`): present exactly when the hint
file is complete and its trailer validates; sealed files have valid hint
files, the active file's trailer is not yet written. -/
def Log.hints (s : Log) (fid : Nat) : Option (List Hint) :=
  if fid ∈ s.hintFiles then some (hintsOf (s.getFile fid)) else none

/-- Remove one occurrence of `x` (`binary_search` then `remove`). -/
def eraseOne (x : Nat) : List Nat → List Nat
  | [] => []
  | y :: r => if y = x then r else y :: eraseOne x r

/-- Replace a compacted segment (`Log::swap_file`): drop `fid` from the
sealed list, add `nfid`, and delete `fid`'s data and hint files from disk. -/
def Log.swap_file (fid nfid : Nat) (s : Log) : Log :=
  { s with files := sortedInsert nfid (eraseOne fid s.files),
           store := aerase fid s.store,
           hintFiles := eraseOne fid s.hintFiles }

/-- The id state of a freshly opened directory (`Log::open`): sealed ids are
the discovered data files, the active id is one past the last of them (or 0)
and the counter starts at the active id. -/
def Log.openLog (files : List Nat) (store : List (Nat × List Entry)) : Log :=
  let active := match files.getLast? with
    | some last => last + 1
    | none => 0
  { files := files, current_file_id := active, active_file_id := active,
    active_pos := 0, size_threshold := DEFAULT_SIZE_THRESHOLD,
    store := ainsert active [] store, hintFiles := files }

/-! ## The engine (`CaskInner` / `Cask` in `src/cask.rs`) -/

/-- The lock-protected engine state (`CaskInner`). -/
structure CaskState where
  current_sequence : Nat
  index : Index
  log : Log
deriving DecidableEq

/-- Point read (`CaskInner::get`): follow the index to a record on disk;
a tombstone (or a failed read) is reported as absent. -/
def CaskState.get (s : CaskState) (key : List Nat) : Option (List Nat) :=
  match alookup key s.index with
  | none => none
  | some ie =>
    match s.log.read_entry ie.file_id ie.entry_pos with
    | none => none
    | some e => if e.deleted then none else some e.value

/-- Write (`CaskInner::put`): append a live record at the current sequence,
advance the sequence, and point the index at the new location. -/
def CaskState.put (s : CaskState) (key value : List Nat) : CaskState :=
  let e := Entry.mkLive s.current_sequence key value
  let r := s.log.append_entry e
  { current_sequence := s.current_sequence + 1,
    index := ainsert key ⟨r.1.1, r.1.2, e.size, e.sequence⟩ s.index,
    log := r.2 }

/-- Delete (`CaskInner::delete`): only when the key is present, remove it
from the index, append a tombstone at the current sequence and advance the
sequence; otherwise do nothing. -/
def CaskState.delete (s : CaskState) (key : List Nat) : CaskState :=
  match alookup key s.index with
  | some _ =>
    let e := Entry.mkDeleted s.current_sequence key
    let r := s.log.append_entry e
    { current_sequence := s.current_sequence + 1,
      index := aerase key s.index,
      log := r.2 }
  | none => s

/-! ## Compaction (`Cask::compact_file` / `Cask::compact`) -/

/-- Whether a source hint's record is copied by compaction: it is live and
the index still holds this exact sequence for its key. -/
def keepHint (idx : Index) (h : Hint) : Bool :=
  !h.deleted &&
    match alookup h.key idx with
    | some ie => ie.sequence = h.sequence
    | none => false

/-- One step of the tombstone-merging map of `compact_file`: a tombstone
hint whose key has no live index entry records the highest such sequence. -/
def deletesStep (idx : Index) (m : List (List Nat × Nat)) (h : Hint) : List (List Nat × Nat) :=
  if h.deleted ∧ alookup h.key idx = none then
    match alookup h.key m with
    | some q => if q < h.sequence then ainsert h.key h.sequence m else m
    | none => ainsert h.key h.sequence m
  else m

/-- The tombstone-merging map of `compact_file`, over all source hints. -/
def buildDeletes (idx : Index) (hs : List Hint) : List (List Nat × Nat) :=
  hs.foldl (deletesStep idx) []

/-- The records `compact_file` writes to the new segment: the copied live
records in hint order, then one merged tombstone per remembered key. -/
def compactEntries (s : CaskState) (file_id : Nat) (hs : List Hint) : List Entry :=
  let copies := hs.filterMap
    (fun h => if keepHint s.index h then s.log.read_entry file_id h.entry_pos else none)
  let tombs := (buildDeletes s.index hs).map (fun p => Entry.mkDeleted p.2 p.1)
  copies ++ tombs

/-- Compact one segment into a fresh file (`Cask::compact_file`): a no-op
without a valid hint file; otherwise allocate a fresh id, write the kept
records and merged tombstones there, and close the writer (hint trailer
committed).  The index, the sealed list and the active writer are untouched. -/
def CaskState.compact_file (s : CaskState) (file_id : Nat) : Option Nat × CaskState :=
  match s.log.hints file_id with
  | none => (none, s)
  | some hs =>
    let n := s.log.new_file_id
    let newList := compactEntries s file_id hs
    (some n.1,
     { s with log := { n.2 with store := ainsert n.1 newList n.2.store,
                                hintFiles := n.1 :: n.2.hintFiles } })

/-- Compaction (`Cask::compact`): after `compact_file`, re-read the new
segment's hints, merge every one into the index via `Index.update`, and swap
the old segment for the new one. -/
def CaskState.compact (s : CaskState) (file_id : Nat) : CaskState :=
  match s.compact_file file_id with
  | (none, s') => s'
  | (some new_id, s') =>
    match s'.log.hints new_id with
    | none => s'
    | some hs =>
      let idx' := hs.foldl (fun i h => Index.update i h new_id) s'.index
      { s' with index := idx', log := Log.swap_file file_id new_id s'.log }

/-! ## Hint-file validation (`is_valid_hint_file`, `Log::hints` fallback) -/

/-- Validate a hint file image (`is_valid_hint_file` in `src/log.rs`): at
least four bytes, and the 32-bit hash of everything before the 4-byte
trailer equals the trailer read little-endian. -/
def is_valid_hint_file (buf : List Nat) : Bool :=
  decide (4 ≤ buf.length) &&
    (xxhash32 (buf.take (buf.length - 4)) (buf.length - 4)
      == readU32LE (buf.drop (buf.length - 4)))

/-- The hint records offered by a hint file image (`Log::hints`): on a valid
trailer, the bytes before it; otherwise absent — never an error. -/
def hintsBytes (buf : List Nat) : Option (List Nat) :=
  if is_valid_hint_file buf then some (buf.take (buf.length - 4)) else none

/-- The hint-loading step of `Cask::open` for one segment: parse the hint
file when it is offered, else fall back to recreating the hints from the
data file's records (`RecreateHints` yields `Hint::from(entry, pos)`). -/
def loadSegmentHints (buf : List Nat) (dataEntries : List Entry)
    (parse : List Nat → List Hint) : List Hint :=
  match hintsBytes buf with
  | some hb => parse hb
  | none => hintsOf dataEntries

/-! ## Well-formedness of engine states

The claims about `get` after mutations presuppose a well-formed engine
state: the file-id counter bounds every id handed out so far, the active
writer's position is the size of the active data file, the index points at
live records that read back consistently, and no two live records of
distinct locations share a key and sequence.  All of these hold of the
state `Cask::open` builds and are maintained by the operations. -/

/-- Basic log well-formedness: ids on disk and the active id never exceed
the counter, and the active writer's position is the active file's size. -/
def Inv1 (s : CaskState) : Prop :=
  (∀ p ∈ s.log.store, p.1 ≤ s.log.current_file_id) ∧
  s.log.active_file_id ≤ s.log.current_file_id ∧
  sizeSum (s.log.getFile s.log.active_file_id) = s.log.active_pos

instance (s : CaskState) : Decidable (Inv1 s) := by
  unfold Inv1
  infer_instance

/-- Key `k` currently reads as value `v`: the index binds `k` to a location
holding a live record with value `v`. -/
def Good (k v : List Nat) (s : CaskState) : Prop :=
  ∃ ie e, alookup k s.index = some ie ∧
    s.log.read_entry ie.file_id ie.entry_pos = some e ∧
    e.deleted = false ∧ e.value = v

/-- An index binding reads back from disk as a live record with the same
key and sequence. -/
def entryOk (s : CaskState) (k : List Nat) (ie : IndexEntry) : Prop :=
  ∃ e, s.log.read_entry ie.file_id ie.entry_pos = some e ∧
    e.key = k ∧ e.deleted = false ∧ e.sequence = ie.sequence

/-- No stale twin of an indexed record: a live hint of a sealed file whose
key and sequence the index carries is the very record the index points at. -/
def uniqSeq (s : CaskState) : Prop :=
  ∀ id ∈ s.log.files, ∀ h ∈ hintsOf (s.log.getFile id), h.deleted = false →
    ∀ ie, alookup h.key s.index = some ie → ie.sequence = h.sequence →
      ie.file_id = id ∧ ie.entry_pos = h.entry_pos

/-- Well-formedness needed around compaction. -/
def Inv2 (s : CaskState) : Prop :=
  (∀ p ∈ s.log.store, p.1 ≤ s.log.current_file_id) ∧
  s.log.active_file_id ≤ s.log.current_file_id ∧
  (∀ f ∈ s.log.files, f ≤ s.log.current_file_id) ∧
  (∀ f ∈ s.log.files, f ∈ s.log.hintFiles) ∧
  (∀ p ∈ s.index, entryOk s p.1 p.2) ∧
  uniqSeq s

/-! ## Mutation sequences (for read-your-writes) -/

/-- A mutation of the engine: a `put` or a `delete`. -/
inductive Op where
  | putOp (key value : List Nat)
  | delOp (key : List Nat)

/-- Whether a mutation targets key `k`. -/
def opTouches (k : List Nat) : Op → Bool
  | Op.putOp k' _ => k' = k
  | Op.delOp k' => k' = k

/-- Apply one mutation. -/
def applyOp (s : CaskState) : Op → CaskState
  | Op.putOp k v => s.put k v
  | Op.delOp k => s.delete k

/-- Apply a sequence of mutations, oldest first. -/
def applyOps (s : CaskState) (ops : List Op) : CaskState := ops.foldl applyOp s

/-! ## Engine steps (for the directory-state invariant) -/

/-- Bump the file-id counter only (`Log::new_file_id` for its state effect). -/
def bumpCounter (s : CaskState) : CaskState := { s with log := (s.log.new_file_id).2 }

/-- One engine operation as it affects the directory state. -/
inductive DirStep : CaskState → CaskState → Prop
  | put (s : CaskState) (k v : List Nat) : DirStep s (s.put k v)
  | del (s : CaskState) (k : List Nat) : DirStep s (s.delete k)
  | newFileId (s : CaskState) : DirStep s (bumpCounter s)
  | compact (s : CaskState) (fid : Nat) : DirStep s (s.compact fid)

/-- The directory invariant as the specification states it: the active id
strictly dominates every sealed id, and the counter is at least the active id. -/
def DirInvFull (s : CaskState) : Prop :=
  (∀ f ∈ s.log.files, f < s.log.active_file_id) ∧
  s.log.active_file_id ≤ s.log.current_file_id

instance (s : CaskState) : Decidable (DirInvFull s) := by
  unfold DirInvFull
  infer_instance

/-- The directory invariant that survives compaction: every sealed id and
the active id are bounded by the counter. -/
def DirInvW (s : CaskState) : Prop :=
  (∀ f ∈ s.log.files, f ≤ s.log.current_file_id) ∧
  s.log.active_file_id ≤ s.log.current_file_id

/-- A freshly opened engine over sealed files `fs` with on-disk data
`store` (the id state of `Cask::open`). -/
def openState (fs : List Nat) (store : List (Nat × List Entry)) : CaskState :=
  { current_sequence := 0, index := [], log := Log.openLog fs store }

/-- A one-segment database used to exhibit the effect of compaction on the
directory invariant: segment 0 holds one live record, the active id is 1. -/
def dirCexInit : CaskState := openState [0] [(0, [Entry.mkLive 0 [1] [2]])]

/-- A log whose active segment is already past the size threshold, so the
next append rolls over. -/
def rollLog : Log := ⟨[], 5, 5, 0, 0, [], []⟩

/-- A log with room in the active segment: the next append stays. -/
def stayLog : Log := ⟨[], 5, 5, 0, 100, [], []⟩

/-- A hint-file image whose trailer is valid by construction: one record
byte followed by the little-endian hash the crate computes over it. -/
def hintCexFile : List Nat := [7] ++ toLE4 (xxhash32 [7] 1)

/-- Take the larger of an accumulator and a hint's sequence (the shape of
the `deletes` map update: replace only on a strictly larger sequence). -/
def maxStep (a : Nat) (h : Hint) : Nat := if a < h.sequence then h.sequence else a

/-- The effect of `Index.update` on the binding of one fixed key, seen as a
function on that key's slot alone. -/
def lupd (fid : Nat) (o : Option IndexEntry) (h : Hint) : Option IndexEntry :=
  match o with
  | some oe =>
    if oe.sequence ≤ h.sequence then
      if h.deleted then none else some ⟨fid, h.entry_pos, h.entry_size, h.sequence⟩
    else some oe
  | none => if h.deleted then none else some ⟨fid, h.entry_pos, h.entry_size, h.sequence⟩

/-- A well-formed one-segment database: segment 0 holds a live record for
key `[1]` and the index points at it. -/
def c2State : CaskState :=
  { current_sequence := 2, index := [([1], ⟨0, 0, 21, 1⟩)],
    log := { files := [0], current_file_id := 1, active_file_id := 1, active_pos := 0,
             size_threshold := DEFAULT_SIZE_THRESHOLD,
             store := [(0, [Entry.mkLive 1 [1] [5]])],
             hintFiles := [0] } }

/-- A state whose segment 0 holds two tombstones for key `[1]` (sequences
3 and 7) and whose index does not hold `[1]`: compacting it must merge the
two tombstones into one at sequence 7. -/
def c8State : CaskState :=
  { current_sequence := 8, index := [],
    log := { files := [0], current_file_id := 5, active_file_id := 1, active_pos := 0,
             size_threshold := DEFAULT_SIZE_THRESHOLD,
             store := [(0, [Entry.mkDeleted 3 [1], Entry.mkDeleted 7 [1]])],
             hintFiles := [0] } }

end Cask

namespace Cask

/-! ## Association-list lemmas -/

theorem alookup_ainsert_self {α β : Type} [DecidableEq α] (k : α) (v : β)
    (m : List (α × β)) : alookup k (ainsert k v m) = some v := by
  simp [ainsert, alookup]

theorem alookup_aerase_ne {α β : Type} [DecidableEq α] {k k' : α} (m : List (α × β))
    (h : k ≠ k') : alookup k' (aerase k m) = alookup k' m := by
  induction m with
  | nil => rfl
  | cons p r ih =>
    obtain ⟨a, b⟩ := p
    by_cases ha : a = k
    · subst ha
      simp [aerase, alookup, h, ih]
    · by_cases ha' : a = k'
      · subst ha'
        simp [aerase, alookup, ha, ih]
      · simp [aerase, alookup, ha, ha', ih]

theorem alookup_aerase_self {α β : Type} [DecidableEq α] (k : α) (m : List (α × β)) :
    alookup k (aerase k m) = none := by
  induction m with
  | nil => rfl
  | cons p r ih =>
    obtain ⟨a, b⟩ := p
    by_cases ha : a = k
    · simp [aerase, ha, ih]
    · simp [aerase, alookup, ha, ih]

theorem alookup_ainsert_ne {α β : Type} [DecidableEq α] {k k' : α} (v : β)
    (m : List (α × β)) (h : k ≠ k') : alookup k' (ainsert k v m) = alookup k' m := by
  simp [ainsert, alookup, h, alookup_aerase_ne m h]

theorem alookup_mem {α β : Type} [DecidableEq α] {k : α} {v : β} {m : List (α × β)}
    (h : alookup k m = some v) : (k, v) ∈ m := by
  induction m with
  | nil => simp [alookup] at h
  | cons p r ih =>
    obtain ⟨a, b⟩ := p
    by_cases ha : a = k
    · subst ha
      simp [alookup] at h
      simp [h]
    · simp [alookup, ha] at h
      exact List.mem_cons_of_mem _ (ih h)

theorem mem_aerase {α β : Type} [DecidableEq α] {k : α} {p : α × β} {m : List (α × β)}
    (h : p ∈ aerase k m) : p ∈ m := by
  induction m with
  | nil => simp [aerase] at h
  | cons q r ih =>
    obtain ⟨a, b⟩ := q
    by_cases ha : a = k
    · simp only [aerase, if_pos ha] at h
      exact List.mem_cons_of_mem _ (ih h)
    · simp only [aerase, if_neg ha] at h
      rcases List.mem_cons.1 h with h' | h'
      · exact h' ▸ List.mem_cons_self _ _
      · exact List.mem_cons_of_mem _ (ih h')

theorem mem_ainsert {α β : Type} [DecidableEq α] {k : α} {v : β} {p : α × β}
    {m : List (α × β)} (h : p ∈ ainsert k v m) : p = (k, v) ∨ p ∈ m := by
  rcases List.mem_cons.1 h with h' | h'
  · exact Or.inl h'
  · exact Or.inr (mem_aerase h')

/-! ## Byte-position lemmas for data files -/

theorem entry_size_pos (e : Entry) : 0 < e.size := by
  simp [Entry.size]

theorem sizeSum_cons (e : Entry) (l : List Entry) :
    sizeSum (e :: l) = e.size + sizeSum l := by
  simp [sizeSum]

theorem readAt_append_right (l : List Entry) (e : Entry) :
    readAt (l ++ [e]) (sizeSum l) = some e := by
  induction l with
  | nil => simp [readAt, sizeSum]
  | cons a l ih =>
    have ha := entry_size_pos a
    rw [sizeSum_cons]
    simp only [List.cons_append, readAt]
    rw [if_neg (by omega), if_pos (by omega)]
    simpa [Nat.add_sub_cancel_left] using ih

theorem readAt_append_left {l : List Entry} {p : Nat} {e : Entry}
    (h : readAt l p = some e) (l2 : List Entry) : readAt (l ++ l2) p = some e := by
  induction l generalizing p with
  | nil => simp [readAt] at h
  | cons a l ih =>
    simp only [readAt] at h
    simp only [List.cons_append, readAt]
    by_cases hp : p = 0
    · simpa [hp] using h
    · rw [if_neg hp] at h ⊢
      by_cases hs : a.size ≤ p
      · rw [if_pos hs] at h ⊢
        exact ih h
      · rw [if_neg hs] at h
        cases h

end Cask

namespace Cask

/-! ## Reading back an appended record -/

theorem append_entry_read_back (L : Log) (e : Entry)
    (h : sizeSum (L.getFile L.active_file_id) = L.active_pos) :
    (L.append_entry e).2.read_entry (L.append_entry e).1.1 (L.append_entry e).1.2 = some e := by
  unfold Log.append_entry
  by_cases hc : L.size_threshold < L.active_pos + e.size
  · rw [if_pos hc]
    show readAt ((alookup _ (ainsert _ _ _)).getD []) _ = some e
    rw [alookup_ainsert_self]
    simp only [Log.new_active_writer, Log.new_file_id, Log.getFile, alookup_ainsert_self]
    simp [readAt]
  · rw [if_neg hc]
    show readAt ((alookup _ (ainsert _ _ _)).getD []) _ = some e
    rw [alookup_ainsert_self]
    simp only [Option.getD_some]
    rw [← h]
    exact readAt_append_right _ e

theorem get_put_self (s : CaskState) (k v : List Nat)
    (h : sizeSum (s.log.getFile s.log.active_file_id) = s.log.active_pos) :
    (s.put k v).get k = some v := by
  unfold CaskState.put CaskState.get
  simp only [alookup_ainsert_self]
  have hr := append_entry_read_back s.log (Entry.mkLive s.current_sequence k v) h
  simp only [hr]
  rfl

/-- C10: empty values are representable and distinct from deletion — after
`put(k, [])` on a state whose active writer position agrees with the active
file size, `get(k)` returns `some []`, not absent, since `get` rejects a
record by its `deleted` flag alone. -/
theorem C10_empty_value (s : CaskState) (key : List Nat)
    (h : sizeSum (s.log.getFile s.log.active_file_id) = s.log.active_pos) :
    (s.put key []).get key = some ([] : List Nat) :=
  get_put_self s key [] h

theorem C10_empty_value_witness :
    (CaskState.put (openState [] []) [1] []).get [1] = some ([] : List Nat) :=
  C10_empty_value (openState [] []) [1] rfl

/-- C3: `Index.update` obeys the exact case analysis of the source: a
vacant key ignores tombstones and inserts puts; an occupied key with
existing sequence at most the hint's is removed by a tombstone and
overwritten by a put (equal sequences treated as newer); an occupied key
with strictly greater sequence is left unchanged. -/
theorem C3_index_update_cases (idx : Index) (hint : Hint) (fid : Nat) :
    (alookup hint.key idx = none → hint.deleted = true →
      Index.update idx hint fid = idx) ∧
    (alookup hint.key idx = none → hint.deleted = false →
      Index.update idx hint fid =
        ainsert hint.key ⟨fid, hint.entry_pos, hint.entry_size, hint.sequence⟩ idx) ∧
    (∀ o, alookup hint.key idx = some o → o.sequence ≤ hint.sequence →
      hint.deleted = true → Index.update idx hint fid = aerase hint.key idx) ∧
    (∀ o, alookup hint.key idx = some o → o.sequence ≤ hint.sequence →
      hint.deleted = false → Index.update idx hint fid =
        ainsert hint.key ⟨fid, hint.entry_pos, hint.entry_size, hint.sequence⟩ idx) ∧
    (∀ o, alookup hint.key idx = some o → hint.sequence < o.sequence →
      Index.update idx hint fid = idx) := by
  refine ⟨?_, ?_, ?_, ?_, ?_⟩
  · intro h hd
    simp [Index.update, h, hd]
  · intro h hd
    simp [Index.update, h, hd]
  · intro o h hs hd
    simp [Index.update, h, hs, hd]
  · intro o h hs hd
    simp [Index.update, h, hs, hd]
  · intro o h hs
    simp [Index.update, h, Nat.not_le.2 hs]

theorem C3_index_update_cases_witness :
    Index.update [] ⟨5, false, [1], 0, 20⟩ 0 = ainsert [1] ⟨0, 0, 20, 5⟩ [] ∧
    Index.update [([1], ⟨0, 0, 20, 5⟩)] ⟨5, true, [1], 3, 20⟩ 2 =
      aerase [1] [([1], ⟨0, 0, 20, 5⟩)] :=
  ⟨(C3_index_update_cases [] ⟨5, false, [1], 0, 20⟩ 0).2.1 rfl rfl,
   (C3_index_update_cases [([1], ⟨0, 0, 20, 5⟩)] ⟨5, true, [1], 3, 20⟩ 2).2.2.1 _ rfl
     (by decide) rfl⟩

/-- C5: the delete contract — when the key is present, `delete` removes it
from the index, appends a tombstone carrying the current sequence number
and advances the sequence counter; when absent, the state is unchanged
(no index, log or sequence change). -/
theorem C5_delete_contract (s : CaskState) (key : List Nat) :
    (∀ ie, alookup key s.index = some ie →
      s.delete key =
        { current_sequence := s.current_sequence + 1,
          index := aerase key s.index,
          log := (Log.append_entry (Entry.mkDeleted s.current_sequence key) s.log).2 }) ∧
    (alookup key s.index = none → s.delete key = s) := by
  constructor
  · intro ie h
    simp [CaskState.delete, h]
  · intro h
    simp [CaskState.delete, h]

theorem C5_delete_contract_witness :
    CaskState.delete (CaskState.put (openState [] []) [1] [7]) [1] =
      { current_sequence := (CaskState.put (openState [] []) [1] [7]).current_sequence + 1,
        index := aerase [1] (CaskState.put (openState [] []) [1] [7]).index,
        log := (Log.append_entry
          (Entry.mkDeleted (CaskState.put (openState [] []) [1] [7]).current_sequence [1])
          (CaskState.put (openState [] []) [1] [7]).log).2 } ∧
    CaskState.delete (CaskState.put (openState [] []) [1] [7]) [9] =
      CaskState.put (openState [] []) [1] [7] :=
  ⟨(C5_delete_contract (CaskState.put (openState [] []) [1] [7]) [1]).1 _ rfl,
   (C5_delete_contract (CaskState.put (openState [] []) [1] [7]) [9]).2 rfl⟩

/-- C7 (amended): `append_entry` seals the active segment and opens a new
one exactly when the write position plus the record size exceeds the size
threshold — whose default is 2000 · 1024 · 1024 bytes, not 2 GiB — the
record then going to the new segment at position 0; hence the active
position after an append never exceeds the threshold by more than the one
record just written. -/
theorem C7_rollover (s : Log) (e : Entry) :
    (s.size_threshold < s.active_pos + e.size →
      (Log.append_entry e s).2.active_file_id = s.current_file_id + 1 ∧
      (Log.append_entry e s).1 = (s.current_file_id + 1, 0) ∧
      (Log.append_entry e s).2.files = sortedInsert s.active_file_id s.files ∧
      (Log.append_entry e s).2.active_pos = e.size) ∧
    (s.active_pos + e.size ≤ s.size_threshold →
      (Log.append_entry e s).2.active_file_id = s.active_file_id ∧
      (Log.append_entry e s).1 = (s.active_file_id, s.active_pos) ∧
      (Log.append_entry e s).2.files = s.files ∧
      (Log.append_entry e s).2.active_pos = s.active_pos + e.size) ∧
    (Log.append_entry e s).2.active_pos ≤ s.size_threshold + e.size ∧
    DEFAULT_SIZE_THRESHOLD = 2000 * 1024 * 1024 := by
  refine ⟨?_, ?_, ?_, rfl⟩
  · intro h
    simp [Log.append_entry, Log.new_active_writer, Log.new_file_id, h]
  · intro h
    simp [Log.append_entry, Nat.not_lt.2 h]
  · by_cases h : s.size_threshold < s.active_pos + e.size
    · simp [Log.append_entry, Log.new_active_writer, Log.new_file_id, h]
    · simp only [Log.append_entry, if_neg h]
      omega

theorem C7_rollover_witness :
    (Log.append_entry (Entry.mkLive 0 [1] [2]) rollLog).2.active_file_id = 6 ∧
    (Log.append_entry (Entry.mkLive 0 [1] [2]) stayLog).2.active_file_id = 5 :=
  ⟨((C7_rollover rollLog (Entry.mkLive 0 [1] [2])).1 (by decide)).1,
   ((C7_rollover stayLog (Entry.mkLive 0 [1] [2])).2.1 (by decide)).1⟩

/-- C7, as stated, is false about the default threshold: the crate's
default segment size threshold is 2000 MiB, not 2 GiB. -/
theorem C7_default_not_2GiB : DEFAULT_SIZE_THRESHOLD ≠ 2 * 1024 * 1024 * 1024 := by
  decide

/-- C9, as stated, is false on the code: the crate's hash helper seeds
XXH32 with 42 (`const SEED: u32 = 42`), not 0 — the trailer of a hint file
the code accepts as valid (built here by construction) differs from the
XXH32 of its records under seed 0. -/
theorem C9_seed_zero_cex :
    is_valid_hint_file hintCexFile = true ∧
    readU32LE (hintCexFile.drop (hintCexFile.length - 4)) ≠
      XXH32 (hintCexFile.take (hintCexFile.length - 4)) 0 := by
  decide

/-- C9 (amended): the 32-bit hash of the hint-file trailer is XXHash32
with seed `SEED = 42`: every hint file the validator accepts has as its
trailer exactly `XXH32(records, 42)`. -/
theorem C9_trailer_xxh32_seed42 (buf : List Nat)
    (h : is_valid_hint_file buf = true) :
    readU32LE (buf.drop (buf.length - 4)) = XXH32 (buf.take (buf.length - 4)) SEED := by
  unfold is_valid_hint_file at h
  rw [Bool.and_eq_true, decide_eq_true_iff, beq_iff_eq] at h
  rw [← h.2]
  unfold xxhash32
  rw [List.take_take, Nat.min_self]

theorem C9_trailer_xxh32_seed42_witness :
    readU32LE (hintCexFile.drop (hintCexFile.length - 4)) =
      XXH32 (hintCexFile.take (hintCexFile.length - 4)) SEED :=
  C9_trailer_xxh32_seed42 hintCexFile (by decide)

/-- C6: hint-file validation recomputes the 32-bit hash over all bytes but
the last four and compares with the little-endian trailer; a file shorter
than a trailer or a hash mismatch makes the hints absent (never an error),
a valid file offers exactly the bytes before the trailer, and an absent
result makes the segment loader fall back to hints recreated from the data
file. -/
theorem C6_hint_validation (buf : List Nat) (dataEntries : List Entry)
    (parse : List Nat → List Hint) :
    (buf.length < 4 → hintsBytes buf = none) ∧
    (4 ≤ buf.length →
      xxhash32 (buf.take (buf.length - 4)) (buf.length - 4) ≠
        readU32LE (buf.drop (buf.length - 4)) →
      hintsBytes buf = none) ∧
    (4 ≤ buf.length →
      xxhash32 (buf.take (buf.length - 4)) (buf.length - 4) =
        readU32LE (buf.drop (buf.length - 4)) →
      hintsBytes buf = some (buf.take (buf.length - 4))) ∧
    (hintsBytes buf = none →
      loadSegmentHints buf dataEntries parse = hintsOf dataEntries) := by
  refine ⟨?_, ?_, ?_, ?_⟩
  · intro h
    simp [hintsBytes, is_valid_hint_file, Nat.not_le.2 h]
  · intro h hm
    simp [hintsBytes, is_valid_hint_file, h, hm]
  · intro h hm
    simp [hintsBytes, is_valid_hint_file, h, hm]
  · intro h
    simp [loadSegmentHints, h]

theorem C6_hint_validation_witness :
    hintsBytes [0, 0, 0] = none ∧
    hintsBytes [0, 0, 0, 0, 0] = none ∧
    hintsBytes hintCexFile = some [7] ∧
    loadSegmentHints [0, 0, 0] [Entry.mkLive 0 [1] [2]] (fun _ => []) =
      hintsOf [Entry.mkLive 0 [1] [2]] :=
  ⟨(C6_hint_validation [0, 0, 0] [] (fun _ => [])).1 (by decide),
   (C6_hint_validation [0, 0, 0, 0, 0] [] (fun _ => [])).2.1 (by decide) (by decide),
   (C6_hint_validation hintCexFile [] (fun _ => [])).2.2.1 (by decide) (by decide),
   (C6_hint_validation [0, 0, 0] [Entry.mkLive 0 [1] [2]] (fun _ => [])).2.2.2 rfl⟩

end Cask

namespace Cask

/-! ## Sorted-list and id-bookkeeping lemmas -/

theorem mem_sortedInsert {x a : Nat} {l : List Nat} (h : x ∈ sortedInsert a l) :
    x = a ∨ x ∈ l := by
  induction l with
  | nil => simpa [sortedInsert] using h
  | cons y r ih =>
    by_cases ha : a ≤ y
    · simpa [sortedInsert, ha] using h
    · simp only [sortedInsert, if_neg ha, List.mem_cons] at h
      rcases h with h | h
      · exact Or.inr (by simp [h])
      · rcases ih h with h' | h'
        · exact Or.inl h'
        · exact Or.inr (List.mem_cons_of_mem _ h')

theorem mem_eraseOne {x a : Nat} {l : List Nat} (h : x ∈ eraseOne a l) : x ∈ l := by
  induction l with
  | nil => simp [eraseOne] at h
  | cons y r ih =>
    by_cases ha : y = a
    · simp only [eraseOne, if_pos ha] at h
      exact List.mem_cons_of_mem _ h
    · simp only [eraseOne, if_neg ha, List.mem_cons] at h
      rcases h with h | h
      · simp [h]
      · exact List.mem_cons_of_mem _ (ih h)

theorem sorted_mem_le_getLast :
    ∀ {fs : List Nat} {f l : Nat}, List.Sorted (· ≤ ·) fs → f ∈ fs →
      fs.getLast? = some l → f ≤ l := by
  intro fs
  induction fs with
  | nil => intro f l _ hf; simp at hf
  | cons a r ih =>
    intro f l hs hf hl
    rcases r with _ | ⟨b, r'⟩
    · simp at hf hl
      omega
    · rw [List.getLast?_cons_cons] at hl
      rcases List.mem_cons.1 hf with rfl | hf'
      · obtain ⟨hne, hx⟩ := List.mem_getLast?_eq_getLast (l := b :: r') (x := l)
          (by simp [hl, Option.mem_def])
        have hmem : l ∈ b :: r' := by
          rw [hx]
          exact List.getLast_mem hne
        exact (List.sorted_cons.1 hs).1 l hmem
      · exact ih (List.sorted_cons.1 hs).2 hf' hl

theorem append_entry_dirfull (L : Log) (e : Entry)
    (h1 : ∀ f ∈ L.files, f < L.active_file_id)
    (h2 : L.active_file_id ≤ L.current_file_id) :
    (∀ f ∈ (L.append_entry e).2.files, f < (L.append_entry e).2.active_file_id) ∧
    (L.append_entry e).2.active_file_id ≤ (L.append_entry e).2.current_file_id := by
  unfold Log.append_entry
  by_cases hc : L.size_threshold < L.active_pos + e.size
  · simp only [if_pos hc, Log.new_active_writer, Log.new_file_id]
    constructor
    · intro f hf
      rcases mem_sortedInsert hf with rfl | hf'
      · omega
      · exact lt_of_lt_of_le (h1 f hf') (by omega)
    · simp
  · simp only [if_neg hc]
    exact ⟨h1, h2⟩

theorem append_entry_dirw (L : Log) (e : Entry)
    (h1 : ∀ f ∈ L.files, f ≤ L.current_file_id)
    (h2 : L.active_file_id ≤ L.current_file_id) :
    (∀ f ∈ (L.append_entry e).2.files, f ≤ (L.append_entry e).2.current_file_id) ∧
    (L.append_entry e).2.active_file_id ≤ (L.append_entry e).2.current_file_id := by
  unfold Log.append_entry
  by_cases hc : L.size_threshold < L.active_pos + e.size
  · simp only [if_pos hc, Log.new_active_writer, Log.new_file_id]
    constructor
    · intro f hf
      rcases mem_sortedInsert hf with rfl | hf'
      · omega
      · exact le_trans (h1 f hf') (by omega)
    · simp
  · simp only [if_neg hc]
    exact ⟨h1, h2⟩

theorem compact_dirw (s : CaskState) (fid : Nat) (h : DirInvW s) :
    DirInvW (s.compact fid) := by
  obtain ⟨h1, h2⟩ := h
  unfold CaskState.compact CaskState.compact_file
  cases hh : s.log.hints fid with
  | none => exact ⟨h1, h2⟩
  | some hs =>
    have hmem : s.log.current_file_id + 1 ∈
        (s.log.current_file_id + 1) :: s.log.hintFiles := List.mem_cons_self _ _
    simp only [Log.new_file_id, Log.hints, if_pos hmem, Log.swap_file]
    refine ⟨?_, ?_⟩
    · intro f hf
      rcases mem_sortedInsert hf with rfl | hf'
      · exact le_refl _
      · exact le_trans (h1 f (mem_eraseOne hf')) (Nat.le_succ _)
    · exact le_trans h2 (Nat.le_succ _)

theorem dirstep_dirw (s t : CaskState) (h : DirInvW s) (st : DirStep s t) : DirInvW t := by
  obtain ⟨h1, h2⟩ := h
  cases st with
  | put k v =>
    exact ⟨(append_entry_dirw s.log (Entry.mkLive s.current_sequence k v) h1 h2).1,
           (append_entry_dirw s.log (Entry.mkLive s.current_sequence k v) h1 h2).2⟩
  | del k =>
    unfold CaskState.delete
    cases hl : alookup k s.index with
    | some ie =>
      exact ⟨(append_entry_dirw s.log (Entry.mkDeleted s.current_sequence k) h1 h2).1,
             (append_entry_dirw s.log (Entry.mkDeleted s.current_sequence k) h1 h2).2⟩
    | none => exact ⟨h1, h2⟩
  | newFileId =>
    refine ⟨fun f hf => ?_, ?_⟩
    · have hb := h1 f hf
      simp only [bumpCounter, Log.new_file_id]
      omega
    · simp only [bumpCounter, Log.new_file_id]
      omega
  | compact fid => exact compact_dirw s fid ⟨h1, h2⟩

/-- C4, as stated, is false on the code: compaction allocates the new
segment id above the active id and `swap_file` seals it, so after a
`compact` the active segment id no longer dominates every sealed id. -/
theorem C4_dir_invariant_cex :
    DirStep dirCexInit (dirCexInit.compact 0) ∧ ¬ DirInvFull (dirCexInit.compact 0) :=
  ⟨DirStep.compact dirCexInit 0, by decide⟩

/-- C4 (amended): after open on a sorted sealed list, and across `put`,
`delete` and bare `new_file_id` calls, the active segment id strictly
dominates every sealed id and the counter is at least the active id; the
`swap_file` ending a compaction can seal an id above the active one, and
what every operation (compaction included) preserves is the weaker
invariant that the counter bounds every sealed id and the active id. -/
theorem C4_dir_invariant (fs : List Nat) (st : List (Nat × List Entry)) (s t : CaskState) :
    (List.Sorted (· ≤ ·) fs → DirInvFull (openState fs st)) ∧
    (DirInvFull s → ∀ k v, DirInvFull (s.put k v)) ∧
    (DirInvFull s → ∀ k, DirInvFull (s.delete k)) ∧
    (DirInvFull s → DirInvFull (bumpCounter s)) ∧
    (DirInvFull s → DirInvW s) ∧
    (DirInvW s → DirStep s t → DirInvW t) ∧
    (DirInvW s → Relation.ReflTransGen DirStep s t → DirInvW t) := by
  refine ⟨?_, ?_, ?_, ?_, ?_, ?_, ?_⟩
  · intro hsort
    unfold DirInvFull openState Log.openLog
    cases hl : fs.getLast? with
    | none =>
      rcases fs with _ | ⟨a, r⟩
      · exact ⟨by simp, le_refl _⟩
      · rw [List.getLast?_eq_getLast_of_ne_nil (l := a :: r) (by simp)] at hl
        cases hl
    | some l =>
      refine ⟨?_, le_refl _⟩
      intro f hf
      have hfl := sorted_mem_le_getLast hsort hf hl
      show f < l + 1
      omega
  · intro h k v
    exact append_entry_dirfull s.log (Entry.mkLive s.current_sequence k v) h.1 h.2
  · intro h k
    unfold CaskState.delete
    cases hl : alookup k s.index with
    | some ie =>
      exact append_entry_dirfull s.log (Entry.mkDeleted s.current_sequence k) h.1 h.2
    | none => exact h
  · intro h
    exact ⟨fun f hf => lt_of_lt_of_le (h.1 f hf) (by simp [bumpCounter, Log.new_file_id]),
           le_trans h.2 (by simp [bumpCounter, Log.new_file_id])⟩
  · intro h
    exact ⟨fun f hf => le_of_lt (lt_of_lt_of_le (h.1 f hf) h.2), h.2⟩
  · intro h st'
    exact dirstep_dirw s t h st'
  · intro h hr
    induction hr with
    | refl => exact h
    | tail _ st' ih => exact dirstep_dirw _ _ ih st'

theorem C4_dir_invariant_witness :
    DirInvFull (openState [0] []) ∧ DirInvW (bumpCounter (openState [0] [])) := by
  have h1 := (C4_dir_invariant [0] [] (openState [0] []) (bumpCounter (openState [0] []))).1
    (List.sorted_singleton 0)
  have h5 := (C4_dir_invariant [0] [] (openState [0] [])
    (bumpCounter (openState [0] []))).2.2.2.2.1 h1
  have h6 := (C4_dir_invariant [0] [] (openState [0] [])
    (bumpCounter (openState [0] []))).2.2.2.2.2.1 h5
    (DirStep.newFileId (openState [0] []))
  exact ⟨h1, h6⟩

end Cask

namespace Cask

/-! ## Preservation lemmas for read-your-writes -/

theorem sizeSum_append_one (l : List Entry) (e : Entry) :
    sizeSum (l ++ [e]) = sizeSum l + e.size := by
  simp [sizeSum]

theorem alookup_fresh_none (L : Log)
    (hdom : ∀ p ∈ L.store, p.1 ≤ L.current_file_id) :
    alookup (L.current_file_id + 1) L.store = (none : Option (List Entry)) := by
  cases hl : alookup (L.current_file_id + 1) L.store with
  | none => rfl
  | some l =>
    have hm := hdom _ (alookup_mem hl)
    simp at hm

theorem append_preserves_read (L : Log) (e' : Entry)
    (hdom : ∀ p ∈ L.store, p.1 ≤ L.current_file_id)
    {fid pos : Nat} {e : Entry} (hr : L.read_entry fid pos = some e) :
    (L.append_entry e').2.read_entry fid pos = some e := by
  by_cases hc : L.size_threshold < L.active_pos + e'.size
  · simp only [Log.append_entry, Log.new_active_writer, Log.new_file_id, if_pos hc,
      Log.read_entry, Log.getFile]
    by_cases hfid : L.current_file_id + 1 = fid
    · exfalso
      rw [Log.read_entry, Log.getFile, ← hfid, alookup_fresh_none L hdom] at hr
      simp [readAt] at hr
    · rw [alookup_ainsert_ne _ _ hfid, alookup_ainsert_ne _ _ hfid]
      exact hr
  · simp only [Log.append_entry, if_neg hc, Log.read_entry, Log.getFile]
    by_cases hfid : L.active_file_id = fid
    · rw [← hfid] at hr ⊢
      rw [alookup_ainsert_self]
      simp only [Option.getD_some]
      exact readAt_append_left hr _
    · rw [alookup_ainsert_ne _ _ hfid]
      exact hr

theorem append_preserves_inv1 (L : Log) (e' : Entry)
    (hdom : ∀ p ∈ L.store, p.1 ≤ L.current_file_id)
    (hact : L.active_file_id ≤ L.current_file_id)
    (hpos : sizeSum (L.getFile L.active_file_id) = L.active_pos) :
    (∀ p ∈ (L.append_entry e').2.store, p.1 ≤ (L.append_entry e').2.current_file_id) ∧
    (L.append_entry e').2.active_file_id ≤ (L.append_entry e').2.current_file_id ∧
    sizeSum ((L.append_entry e').2.getFile (L.append_entry e').2.active_file_id) =
      (L.append_entry e').2.active_pos := by
  by_cases hc : L.size_threshold < L.active_pos + e'.size
  · simp only [Log.append_entry, Log.new_active_writer, Log.new_file_id, if_pos hc,
      Log.getFile]
    refine ⟨?_, le_refl _, ?_⟩
    · intro p hp
      rcases mem_ainsert hp with rfl | hp'
      · exact le_refl _
      · rcases mem_ainsert hp' with rfl | hp''
        · exact le_refl _
        · exact le_trans (hdom p hp'') (Nat.le_succ _)
    · rw [alookup_ainsert_self]
      simp only [Option.getD_some]
      rw [alookup_ainsert_self]
      simp [sizeSum]
  · simp only [Log.append_entry, if_neg hc, Log.getFile]
    refine ⟨?_, hact, ?_⟩
    · intro p hp
      rcases mem_ainsert hp with rfl | hp'
      · exact hact
      · exact hdom p hp'
    · rw [alookup_ainsert_self]
      simp only [Option.getD_some]
      rw [sizeSum_append_one]
      rw [Log.getFile] at hpos
      rw [hpos]

theorem put_preserves_inv1 (s : CaskState) (k v : List Nat) (h : Inv1 s) :
    Inv1 (s.put k v) := by
  obtain ⟨h1, h2, h3⟩ := h
  exact append_preserves_inv1 s.log (Entry.mkLive s.current_sequence k v) h1 h2 h3

theorem delete_preserves_inv1 (s : CaskState) (k : List Nat) (h : Inv1 s) :
    Inv1 (s.delete k) := by
  obtain ⟨h1, h2, h3⟩ := h
  unfold CaskState.delete
  cases hl : alookup k s.index with
  | some ie =>
    exact append_preserves_inv1 s.log (Entry.mkDeleted s.current_sequence k) h1 h2 h3
  | none => exact ⟨h1, h2, h3⟩

theorem put_establishes_good (s : CaskState) (k v : List Nat)
    (h3 : sizeSum (s.log.getFile s.log.active_file_id) = s.log.active_pos) :
    Good k v (s.put k v) :=
  ⟨_, Entry.mkLive s.current_sequence k v, alookup_ainsert_self _ _ _,
    append_entry_read_back s.log (Entry.mkLive s.current_sequence k v) h3, rfl, rfl⟩

theorem put_preserves_good (s : CaskState) {k : List Nat} (v : List Nat) {k' : List Nat}
    (v' : List Nat) (hne : k' ≠ k)
    (h1 : ∀ p ∈ s.log.store, p.1 ≤ s.log.current_file_id)
    (hg : Good k v s) : Good k v (s.put k' v') := by
  obtain ⟨ie, e, hi, hr, hd, hv⟩ := hg
  refine ⟨ie, e, ?_, append_preserves_read s.log _ h1 hr, hd, hv⟩
  show alookup k (ainsert k' _ s.index) = some ie
  rw [alookup_ainsert_ne _ _ hne]
  exact hi

theorem delete_preserves_good (s : CaskState) {k : List Nat} (v : List Nat) {k' : List Nat}
    (hne : k' ≠ k)
    (h1 : ∀ p ∈ s.log.store, p.1 ≤ s.log.current_file_id)
    (hg : Good k v s) : Good k v (s.delete k') := by
  obtain ⟨ie, e, hi, hr, hd, hv⟩ := hg
  unfold CaskState.delete
  cases hl : alookup k' s.index with
  | some ie' =>
    refine ⟨ie, e, ?_, append_preserves_read s.log _ h1 hr, hd, hv⟩
    show alookup k (aerase k' s.index) = some ie
    rw [alookup_aerase_ne _ hne]
    exact hi
  | none => exact ⟨ie, e, hi, hr, hd, hv⟩

theorem good_get {k v : List Nat} {s : CaskState} (hg : Good k v s) : s.get k = some v := by
  obtain ⟨ie, e, hi, hr, hd, hv⟩ := hg
  simp [CaskState.get, hi, hr, hd, hv]

theorem applyOps_good (k v : List Nat) :
    ∀ (ops : List Op) (s : CaskState), Inv1 s → Good k v s →
      (∀ op ∈ ops, opTouches k op = false) →
      Inv1 (applyOps s ops) ∧ Good k v (applyOps s ops) := by
  intro ops
  induction ops with
  | nil =>
    intro s h1 hg _
    exact ⟨h1, hg⟩
  | cons op rest ih =>
    intro s h1 hg hops
    have hop := hops op (List.mem_cons_self _ _)
    have hrest : ∀ o ∈ rest, opTouches k o = false :=
      fun o ho => hops o (List.mem_cons_of_mem _ ho)
    cases op with
    | putOp k' v' =>
      have hne : k' ≠ k := by simpa [opTouches] using hop
      exact ih (s.put k' v') (put_preserves_inv1 s k' v' h1)
        (put_preserves_good s v v' hne h1.1 hg) hrest
    | delOp k' =>
      have hne : k' ≠ k := by simpa [opTouches] using hop
      exact ih (s.delete k') (delete_preserves_inv1 s k' h1)
        (delete_preserves_good s v hne h1.1 hg) hrest

/-- C1: read-your-writes — on a well-formed engine state, after
`put(k, v)` every later `get(k)` returns `some v` across any sequence of
further `put`/`delete` operations none of which targets `k`. -/
theorem C1_read_your_writes (s : CaskState) (k v : List Nat) (ops : List Op)
    (hinv : Inv1 s) (hops : ∀ op ∈ ops, opTouches k op = false) :
    (applyOps (s.put k v) ops).get k = some v := by
  have h1 := put_preserves_inv1 s k v hinv
  have hg := put_establishes_good s k v hinv.2.2
  exact good_get (applyOps_good k v ops (s.put k v) h1 hg hops).2

theorem C1_read_your_writes_witness :
    (applyOps (CaskState.put (openState [] []) [1] [7])
      [Op.putOp [2] [9], Op.delOp [2]]).get [1] = some [7] :=
  C1_read_your_writes (openState [] []) [1] [7] [Op.putOp [2] [9], Op.delOp [2]]
    (by decide) (by decide)

end Cask

namespace Cask

/-! ## Hints and byte positions correspond -/

theorem hintsFrom_pos_ge :
    ∀ (l : List Entry) (pos : Nat) (h : Hint), h ∈ hintsFrom pos l → pos ≤ h.entry_pos := by
  intro l
  induction l with
  | nil => intro pos h hh; simp [hintsFrom] at hh
  | cons e es ih =>
    intro pos h hh
    rcases List.mem_cons.1 hh with rfl | hh'
    · exact le_refl _
    · have := ih (pos + e.size) h hh'
      omega

theorem hintsFrom_read :
    ∀ (l : List Entry) (pos : Nat) (h : Hint), h ∈ hintsFrom pos l →
      ∃ e, readAt l (h.entry_pos - pos) = some e ∧ Hint.ofEntry e h.entry_pos = h := by
  intro l
  induction l with
  | nil => intro pos h hh; simp [hintsFrom] at hh
  | cons e es ih =>
    intro pos h hh
    rcases List.mem_cons.1 hh with rfl | hh'
    · refine ⟨e, ?_, rfl⟩
      simp [Hint.ofEntry, readAt]
    · obtain ⟨e', hr, ho⟩ := ih (pos + e.size) h hh'
      have hge := hintsFrom_pos_ge es (pos + e.size) h hh'
      have hsz := entry_size_pos e
      refine ⟨e', ?_, ho⟩
      show readAt (e :: es) (h.entry_pos - pos) = some e'
      rw [readAt]
      rw [if_neg (by omega), if_pos (by omega)]
      have harith : h.entry_pos - pos - e.size = h.entry_pos - (pos + e.size) := by omega
      rw [harith]
      exact hr

theorem read_hintsFrom :
    ∀ (l : List Entry) (pos q : Nat) (e : Entry), readAt l q = some e →
      Hint.ofEntry e (pos + q) ∈ hintsFrom pos l := by
  intro l
  induction l with
  | nil => intro pos q e hr; simp [readAt] at hr
  | cons a es ih =>
    intro pos q e hr
    rw [readAt] at hr
    by_cases hq : q = 0
    · rw [if_pos hq] at hr
      cases hr
      subst hq
      simp [hintsFrom]
    · rw [if_neg hq] at hr
      by_cases hs : a.size ≤ q
      · rw [if_pos hs] at hr
        have := ih (pos + a.size) (q - a.size) e hr
        have harith : pos + a.size + (q - a.size) = pos + q := by omega
        rw [harith] at this
        exact List.mem_cons_of_mem _ this
      · rw [if_neg hs] at hr
        cases hr

theorem hintsOf_read {l : List Entry} {h : Hint} (hh : h ∈ hintsOf l) :
    ∃ e, readAt l h.entry_pos = some e ∧ Hint.ofEntry e h.entry_pos = h := by
  obtain ⟨e, hr, ho⟩ := hintsFrom_read l 0 h hh
  exact ⟨e, by simpa using hr, ho⟩

theorem read_hintsOf {l : List Entry} {q : Nat} {e : Entry} (hr : readAt l q = some e) :
    Hint.ofEntry e q ∈ hintsOf l := by
  have := read_hintsFrom l 0 q e hr
  simpa using this

/-! ## The merged-deletes map of compaction -/

theorem aerase_sublist {α β : Type} [DecidableEq α] (k : α) (m : List (α × β)) :
    List.Sublist (aerase k m) m := by
  induction m with
  | nil => simp [aerase]
  | cons p r ih =>
    obtain ⟨a, b⟩ := p
    by_cases ha : a = k
    · simp only [aerase, if_pos ha]
      exact ih.cons _
    · simp only [aerase, if_neg ha]
      exact ih.cons₂ _

theorem mem_aerase_ne {α β : Type} [DecidableEq α] {k : α} {p : α × β} {m : List (α × β)}
    (h : p ∈ aerase k m) : p.1 ≠ k := by
  induction m with
  | nil => simp [aerase] at h
  | cons q r ih =>
    obtain ⟨a, b⟩ := q
    by_cases ha : a = k
    · simp only [aerase, if_pos ha] at h
      exact ih h
    · simp only [aerase, if_neg ha] at h
      rcases List.mem_cons.1 h with rfl | h'
      · exact ha
      · exact ih h'

theorem pairwise_ainsert {α β : Type} [DecidableEq α] {k : α} {v : β} {m : List (α × β)}
    (h : m.Pairwise (fun a b => a.1 ≠ b.1)) :
    (ainsert k v m).Pairwise (fun a b => a.1 ≠ b.1) := by
  refine List.Pairwise.cons ?_ (List.Pairwise.sublist (aerase_sublist k m) h)
  intro p hp
  exact (mem_aerase_ne hp).symm

theorem deletes_fold_pairwise (idx : Index) :
    ∀ (hs : List Hint) (acc : List (List Nat × Nat)),
      acc.Pairwise (fun a b => a.1 ≠ b.1) →
      (hs.foldl (deletesStep idx) acc).Pairwise (fun a b => a.1 ≠ b.1) := by
  intro hs
  induction hs with
  | nil => intro acc h; exact h
  | cons h0 rest ih =>
    intro acc h
    refine ih (deletesStep idx acc h0) ?_
    unfold deletesStep
    by_cases hc : h0.deleted = true ∧ alookup h0.key idx = none
    · rw [if_pos (by simpa using hc)]
      cases alookup h0.key acc with
      | some q =>
        by_cases hq : q < h0.sequence
        · simpa [hq] using pairwise_ainsert (k := h0.key) (v := h0.sequence) h
        · simpa [hq] using h
      | none => exact pairwise_ainsert h
    · rw [if_neg (by simpa using hc)]
      exact h

theorem alookup_deletes_fold (idx : Index) (k : List Nat) (hnone : alookup k idx = none) :
    ∀ (hs : List Hint) (acc : List (List Nat × Nat)),
      alookup k (hs.foldl (deletesStep idx) acc) =
        (hs.filter (fun h => h.deleted && decide (h.key = k))).foldl
          (fun o h => some (o.elim h.sequence (fun q => maxStep q h)))
          (alookup k acc) := by
  intro hs
  induction hs with
  | nil => intro acc; rfl
  | cons h0 rest ih =>
    intro acc
    show alookup k (rest.foldl (deletesStep idx) (deletesStep idx acc h0)) = _
    rw [ih (deletesStep idx acc h0)]
    by_cases hk : h0.deleted = true ∧ h0.key = k
    · have hfil : (h0 :: rest).filter (fun h => h.deleted && decide (h.key = k)) =
          h0 :: rest.filter (fun h => h.deleted && decide (h.key = k)) := by
        simp [List.filter_cons, hk.1, hk.2]
      rw [hfil]
      have hstep : alookup k (deletesStep idx acc h0) =
          some ((alookup k acc).elim h0.sequence (fun q => maxStep q h0)) := by
        unfold deletesStep
        rw [if_pos ⟨hk.1, hk.2 ▸ hnone⟩, hk.2]
        cases hacc : alookup k acc with
        | some q =>
          by_cases hq : q < h0.sequence
          · simp [hq, alookup_ainsert_self, maxStep]
          · simp [hq, hacc, maxStep]
        | none => simp [alookup_ainsert_self]
      rw [hstep]
      rfl
    · have hfil : (h0 :: rest).filter (fun h => h.deleted && decide (h.key = k)) =
          rest.filter (fun h => h.deleted && decide (h.key = k)) := by
        rw [List.filter_cons]
        have hb : (h0.deleted && decide (h0.key = k)) = false := by
          rcases not_and_or.1 hk with hd | hkk
          · have hdf : h0.deleted = false := by
              revert hd
              cases h0.deleted <;> simp
            simp [hdf]
          · simp [hkk]
        rw [hb]
        simp
      rw [hfil]
      have hstep : alookup k (deletesStep idx acc h0) = alookup k acc := by
        unfold deletesStep
        by_cases hc : h0.deleted = true ∧ alookup h0.key idx = none
        · have hkne : h0.key ≠ k := by
            intro hkk
            exact hk ⟨hc.1, hkk⟩
          rw [if_pos (by simpa using hc)]
          cases alookup h0.key acc with
          | some q =>
            by_cases hq : q < h0.sequence
            · simp [hq, alookup_ainsert_ne _ _ hkne]
            · simp [hq]
          | none => simp [alookup_ainsert_ne _ _ hkne]
        · rw [if_neg (by simpa using hc)]
      rw [hstep]

end Cask

namespace Cask

/-! ## Maximum-sequence folds -/

theorem foldl_maxStep_init_le : ∀ (l : List Hint) (a : Nat), a ≤ l.foldl maxStep a := by
  intro l
  induction l with
  | nil => intro a; exact le_refl _
  | cons h r ih =>
    intro a
    have hst : a ≤ maxStep a h := by
      unfold maxStep
      split <;> omega
    exact le_trans hst (ih (maxStep a h))

theorem foldl_maxStep_mem_le :
    ∀ (l : List Hint) (a : Nat) (h : Hint), h ∈ l → h.sequence ≤ l.foldl maxStep a := by
  intro l
  induction l with
  | nil => intro a h hh; simp at hh
  | cons h0 r ih =>
    intro a h hh
    rcases List.mem_cons.1 hh with rfl | hh'
    · have hst : h.sequence ≤ maxStep a h := by
        unfold maxStep
        split <;> omega
      exact le_trans hst (foldl_maxStep_init_le r (maxStep a h))
    · exact ih (maxStep a h0) h hh'

theorem foldl_maxStep_eq_init_or_mem :
    ∀ (l : List Hint) (a : Nat),
      l.foldl maxStep a = a ∨ ∃ h ∈ l, l.foldl maxStep a = h.sequence := by
  intro l
  induction l with
  | nil => intro a; exact Or.inl rfl
  | cons h0 r ih =>
    intro a
    rcases ih (maxStep a h0) with heq | ⟨h, hh, heq⟩
    · by_cases hq : a < h0.sequence
      · refine Or.inr ⟨h0, List.mem_cons_self _ _, ?_⟩
        show List.foldl maxStep (maxStep a h0) r = h0.sequence
        rw [heq]
        unfold maxStep
        rw [if_pos hq]
      · refine Or.inl ?_
        show List.foldl maxStep (maxStep a h0) r = a
        rw [heq]
        unfold maxStep
        rw [if_neg hq]
    · exact Or.inr ⟨h, List.mem_cons_of_mem _ hh, heq⟩

theorem scalar_fold_some :
    ∀ (l : List Hint) (m : Nat),
      l.foldl (fun o h => some (o.elim h.sequence (fun q => maxStep q h))) (some m) =
        some (l.foldl maxStep m) := by
  intro l
  induction l with
  | nil => intro m; rfl
  | cons h r ih => intro m; exact ih (maxStep m h)

theorem alookup_filter_singleton {α β : Type} [DecidableEq α] {k : α} {q : β} :
    ∀ {m : List (α × β)}, m.Pairwise (fun a b => a.1 ≠ b.1) → alookup k m = some q →
      m.filter (fun p => decide (p.1 = k)) = [(k, q)] := by
  intro m
  induction m with
  | nil => intro _ h; simp [alookup] at h
  | cons p r ih =>
    intro hp hl
    obtain ⟨a, b⟩ := p
    rw [List.pairwise_cons] at hp
    by_cases ha : a = k
    · subst ha
      have hb : b = q := by simpa [alookup] using hl
      subst hb
      have hrest : r.filter (fun p => decide (p.1 = a)) = [] := by
        rw [List.filter_eq_nil_iff]
        intro p hp'
        have := hp.1 p hp'
        simp [this.symm]
      simp [List.filter_cons, hrest]
    · have hl' : alookup k r = some q := by simpa [alookup, ha] using hl
      simp [List.filter_cons, ha, ih hp.2 hl']

/-! ## The records compaction copies -/

theorem mem_copies (s : CaskState) (fid : Nat) {e : Entry}
    (he : e ∈ (hintsOf (s.log.getFile fid)).filterMap
      (fun h => if keepHint s.index h then s.log.read_entry fid h.entry_pos else none)) :
    e.deleted = false ∧ ∃ ie, alookup e.key s.index = some ie ∧ ie.sequence = e.sequence := by
  obtain ⟨h, hh, hf⟩ := List.mem_filterMap.1 he
  by_cases hk : keepHint s.index h = true
  · rw [if_pos hk] at hf
    obtain ⟨e', hr', ho'⟩ := hintsOf_read hh
    have hre : readAt (s.log.getFile fid) h.entry_pos = some e := hf
    rw [hre] at hr'
    have hee : e' = e := (Option.some.inj hr').symm
    subst hee
    rw [← ho'] at hk
    simp only [keepHint, Hint.ofEntry, Bool.and_eq_true, Bool.not_eq_true'] at hk
    obtain ⟨hdel, hmatch⟩ := hk
    refine ⟨hdel, ?_⟩
    cases hacc : alookup e'.key s.index with
    | none =>
      rw [hacc] at hmatch
      simp at hmatch
    | some ie =>
      rw [hacc] at hmatch
      simp only [decide_eq_true_eq] at hmatch
      exact ⟨ie, rfl, hmatch⟩
  · rw [if_neg hk] at hf
    cases hf

theorem copies_filter_nil (s : CaskState) (fid : Nat) (k : List Nat)
    (hnone : alookup k s.index = none) :
    ((hintsOf (s.log.getFile fid)).filterMap
      (fun h => if keepHint s.index h then s.log.read_entry fid h.entry_pos else none)).filter
      (fun e => decide (e.key = k)) = [] := by
  rw [List.filter_eq_nil_iff]
  intro e he hd
  rw [decide_eq_true_eq] at hd
  obtain ⟨_, ie, hie, _⟩ := mem_copies s fid he
  rw [hd, hnone] at hie
  cases hie

end Cask

namespace Cask

/-- C8: compaction's tombstone merging — for a key with no live index entry
but with tombstone hints in the source segment, the new segment's records
contain exactly one record with that key: a tombstone carrying the greatest
sequence among those tombstone hints; and the records split into the copied
live records followed by the merged tombstones, so every merged tombstone
is written after every copied live record. -/
theorem C8_compaction_tombstones (s : CaskState) (file_id : Nat) (k : List Nat)
    (hnone : alookup k s.index = none)
    (hex : (hintsOf (s.log.getFile file_id)).filter
      (fun h => h.deleted && decide (h.key = k)) ≠ []) :
    ∃ m,
      m ∈ ((hintsOf (s.log.getFile file_id)).filter
        (fun h => h.deleted && decide (h.key = k))).map Hint.sequence ∧
      (∀ q ∈ ((hintsOf (s.log.getFile file_id)).filter
        (fun h => h.deleted && decide (h.key = k))).map Hint.sequence, q ≤ m) ∧
      (compactEntries s file_id (hintsOf (s.log.getFile file_id))).filter
        (fun e => decide (e.key = k)) = [Entry.mkDeleted m k] ∧
      ∃ A B, compactEntries s file_id (hintsOf (s.log.getFile file_id)) = A ++ B ∧
        (∀ e ∈ A, e.deleted = false) ∧ (∀ e ∈ B, e.deleted = true) := by
  cases hfl : (hintsOf (s.log.getFile file_id)).filter
      (fun h => h.deleted && decide (h.key = k)) with
  | nil => exact absurd hfl hex
  | cons h0 rest =>
    have hlook : alookup k (buildDeletes s.index (hintsOf (s.log.getFile file_id))) =
        some (rest.foldl maxStep h0.sequence) := by
      unfold buildDeletes
      rw [alookup_deletes_fold s.index k hnone, hfl]
      exact scalar_fold_some rest h0.sequence
    refine ⟨rest.foldl maxStep h0.sequence, ?_, ?_, ?_, ?_⟩
    · rcases foldl_maxStep_eq_init_or_mem rest h0.sequence with heq | ⟨h, hh, heq⟩
      · rw [heq]
        exact List.mem_map_of_mem _ (List.mem_cons_self _ _)
      · rw [heq]
        exact List.mem_map_of_mem _ (List.mem_cons_of_mem _ hh)
    · intro q hq
      obtain ⟨h', hh', rfl⟩ := List.mem_map.1 hq
      rcases List.mem_cons.1 hh' with rfl | hh''
      · exact foldl_maxStep_init_le rest h'.sequence
      · exact foldl_maxStep_mem_le rest h0.sequence h' hh''
    · simp only [compactEntries]
      rw [List.filter_append, copies_filter_nil s file_id k hnone, List.nil_append,
        List.filter_map]
      have hcong : (buildDeletes s.index (hintsOf (s.log.getFile file_id))).filter
          ((fun e => decide (e.key = k)) ∘ (fun p => Entry.mkDeleted p.2 p.1)) =
          (buildDeletes s.index (hintsOf (s.log.getFile file_id))).filter
          (fun p => decide (p.1 = k)) :=
        List.filter_congr (fun a _ => rfl)
      have hpair : (buildDeletes s.index (hintsOf (s.log.getFile file_id))).Pairwise
          (fun a b => a.1 ≠ b.1) := deletes_fold_pairwise s.index _ [] List.Pairwise.nil
      rw [hcong, alookup_filter_singleton hpair hlook]
      rfl
    · refine ⟨_, _, rfl, ?_, ?_⟩
      · intro e he
        exact (mem_copies s file_id he).1
      · intro e he
        obtain ⟨p, _, rfl⟩ := List.mem_map.1 he
        rfl

theorem C8_compaction_tombstones_witness :
    ∃ m,
      m ∈ ((hintsOf (c8State.log.getFile 0)).filter
        (fun h => h.deleted && decide (h.key = [1]))).map Hint.sequence ∧
      (∀ q ∈ ((hintsOf (c8State.log.getFile 0)).filter
        (fun h => h.deleted && decide (h.key = [1]))).map Hint.sequence, q ≤ m) ∧
      (compactEntries c8State 0 (hintsOf (c8State.log.getFile 0))).filter
        (fun e => decide (e.key = [1])) = [Entry.mkDeleted m [1]] ∧
      ∃ A B, compactEntries c8State 0 (hintsOf (c8State.log.getFile 0)) = A ++ B ∧
        (∀ e ∈ A, e.deleted = false) ∧ (∀ e ∈ B, e.deleted = true) :=
  C8_compaction_tombstones c8State 0 [1] rfl (by decide)

end Cask

namespace Cask

/-! ## Supporting lemmas for compaction invariance -/

theorem readAt_mem : ∀ {l : List Entry} {q : Nat} {e : Entry}, readAt l q = some e → e ∈ l := by
  intro l
  induction l with
  | nil => intro q e h; simp [readAt] at h
  | cons a es ih =>
    intro q e h
    rw [readAt] at h
    by_cases hq : q = 0
    · rw [if_pos hq] at h
      cases h
      exact List.mem_cons_self _ _
    · rw [if_neg hq] at h
      by_cases hs : a.size ≤ q
      · rw [if_pos hs] at h
        exact List.mem_cons_of_mem _ (ih h)
      · rw [if_neg hs] at h
        cases h

theorem read_entry_fid_bound (s : CaskState)
    (hdom : ∀ p ∈ s.log.store, p.1 ≤ s.log.current_file_id)
    {fid pos : Nat} {e : Entry} (hr : s.log.read_entry fid pos = some e) :
    fid ≤ s.log.current_file_id := by
  cases hl : alookup fid s.log.store with
  | none =>
    rw [Log.read_entry, Log.getFile, hl] at hr
    simp [readAt] at hr
  | some l => exact hdom _ (alookup_mem hl)

theorem alookup_update_fold (fid : Nat) (k : List Nat) :
    ∀ (hs : List Hint) (idx : Index),
      alookup k (hs.foldl (fun i h => Index.update i h fid) idx) =
        (hs.filter (fun h => decide (h.key = k))).foldl (lupd fid) (alookup k idx) := by
  intro hs
  induction hs with
  | nil => intro idx; rfl
  | cons h rest ih =>
    intro idx
    show alookup k (rest.foldl _ (Index.update idx h fid)) = _
    rw [ih (Index.update idx h fid)]
    by_cases hk : h.key = k
    · have hfil : (h :: rest).filter (fun h => decide (h.key = k)) =
          h :: rest.filter (fun h => decide (h.key = k)) := by
        simp [List.filter_cons, hk]
      rw [hfil]
      have hstep : alookup k (Index.update idx h fid) = lupd fid (alookup k idx) h := by
        unfold Index.update lupd
        rw [hk]
        cases hacc : alookup k idx with
        | some o =>
          by_cases hs' : o.sequence ≤ h.sequence
          · by_cases hd : h.deleted
            · simp [hs', hd, alookup_aerase_self]
            · simp [hs', hd, alookup_ainsert_self]
          · simp [hs', hacc]
        | none =>
          by_cases hd : h.deleted
          · simp [hd, hacc]
          · simp [hd, alookup_ainsert_self]
      rw [hstep]
      rfl
    · have hfil : (h :: rest).filter (fun h => decide (h.key = k)) =
          rest.filter (fun h => decide (h.key = k)) := by
        simp [List.filter_cons, hk]
      rw [hfil]
      have hstep : alookup k (Index.update idx h fid) = alookup k idx := by
        unfold Index.update
        cases hacc : alookup h.key idx with
        | some o =>
          by_cases hs' : o.sequence ≤ h.sequence
          · by_cases hd : h.deleted
            · simp [hs', hd, alookup_aerase_ne _ hk]
            · simp [hs', hd, alookup_ainsert_ne _ _ hk]
          · simp [hs']
        | none =>
          by_cases hd : h.deleted
          · simp [hd]
          · simp [hd, alookup_ainsert_ne _ _ hk]
      rw [hstep]

theorem lupd_fold_none_all_deleted (fid : Nat) :
    ∀ (l : List Hint), (∀ h ∈ l, h.deleted = true) →
      l.foldl (lupd fid) none = none := by
  intro l
  induction l with
  | nil => intro _; rfl
  | cons h rest ih =>
    intro hall
    have hd := hall h (List.mem_cons_self _ _)
    show List.foldl (lupd fid) (lupd fid none h) rest = none
    have : lupd fid none h = none := by
      unfold lupd
      rw [if_pos hd]
    rw [this]
    exact ih (fun h' hh' => hall h' (List.mem_cons_of_mem _ hh'))

theorem hintsFrom_key_deleted (k : List Nat) {l : List Entry}
    (hall : ∀ e ∈ l, e.key = k → e.deleted = true) :
    ∀ pos, ∀ h ∈ hintsFrom pos l, h.key = k → h.deleted = true := by
  intro pos h hh hk
  obtain ⟨e, hr, ho⟩ := hintsFrom_read l pos h hh
  have hmem := readAt_mem hr
  rw [← ho]
  show e.deleted = true
  exact hall e hmem (by rw [← hk, ← ho]; rfl)

theorem hints_filter_key_nil (k : List Nat) :
    ∀ (l : List Entry) (pos : Nat),
      l.filter (fun e => decide (e.key = k)) = [] →
      (hintsFrom pos l).filter (fun h => decide (h.key = k)) = [] := by
  intro l
  induction l with
  | nil => intro pos _; rfl
  | cons e es ih =>
    intro pos h
    rw [List.filter_cons] at h
    by_cases hk : e.key = k
    · rw [if_pos (by simp [hk])] at h
      cases h
    · rw [if_neg (by simp [hk])] at h
      show (Hint.ofEntry e pos :: hintsFrom (pos + e.size) es).filter _ = []
      rw [List.filter_cons, if_neg (by simp [Hint.ofEntry, hk])]
      exact ih (pos + e.size) h

theorem hints_filter_key_singleton (k : List Nat) :
    ∀ (l : List Entry) (pos : Nat) (e0 : Entry),
      l.filter (fun e => decide (e.key = k)) = [e0] →
      ∃ p0, pos ≤ p0 ∧
        (hintsFrom pos l).filter (fun h => decide (h.key = k)) = [Hint.ofEntry e0 p0] ∧
        readAt l (p0 - pos) = some e0 := by
  intro l
  induction l with
  | nil =>
    intro pos e0 h
    simp at h
  | cons e es ih =>
    intro pos e0 h
    rw [List.filter_cons] at h
    by_cases hk : e.key = k
    · rw [if_pos (by simp [hk])] at h
      injection h with h1 h2
      refine ⟨pos, le_refl _, ?_, ?_⟩
      · show (Hint.ofEntry e pos :: hintsFrom (pos + e.size) es).filter _ = _
        rw [List.filter_cons, if_pos (by simp [Hint.ofEntry, hk]),
          hints_filter_key_nil k es (pos + e.size) h2, h1]
      · rw [Nat.sub_self, readAt, if_pos rfl, h1]
    · rw [if_neg (by simp [hk])] at h
      obtain ⟨p0, hge, hfil, hread⟩ := ih (pos + e.size) e0 h
      have hsz := entry_size_pos e
      refine ⟨p0, by omega, ?_, ?_⟩
      · show (Hint.ofEntry e pos :: hintsFrom (pos + e.size) es).filter _ = _
        rw [List.filter_cons, if_neg (by simp [Hint.ofEntry, hk])]
        exact hfil
      · show readAt (e :: es) (p0 - pos) = some e0
        rw [readAt, if_neg (by omega), if_pos (by omega)]
        have harith : p0 - pos - e.size = p0 - (pos + e.size) := by omega
        rw [harith]
        exact hread

theorem hintsFrom_pos_pairwise :
    ∀ (l : List Entry) (pos : Nat),
      (hintsFrom pos l).Pairwise (fun a b => a.entry_pos < b.entry_pos) := by
  intro l
  induction l with
  | nil => intro pos; exact List.Pairwise.nil
  | cons e es ih =>
    intro pos
    refine List.Pairwise.cons ?_ (ih (pos + e.size))
    intro h hh
    have := hintsFrom_pos_ge es (pos + e.size) h hh
    have hsz := entry_size_pos e
    show pos < h.entry_pos
    omega

theorem filter_singleton_of_unique {p : Hint → Bool} {hstar : Hint} :
    ∀ {l : List Hint}, l.Pairwise (fun a b => a.entry_pos < b.entry_pos) →
      hstar ∈ l → p hstar = true →
      (∀ h ∈ l, p h = true → h.entry_pos = hstar.entry_pos) →
      l.filter p = [hstar] := by
  intro l
  induction l with
  | nil => intro _ hm; simp at hm
  | cons a rest ih =>
    intro hpair hm hp huni
    rw [List.pairwise_cons] at hpair
    rcases List.mem_cons.1 hm with rfl | hm'
    · rw [List.filter_cons, if_pos hp]
      have hrest : rest.filter p = [] := by
        rw [List.filter_eq_nil_iff]
        intro h hh hph
        have h1 := huni h (List.mem_cons_of_mem _ hh) hph
        have h2 := hpair.1 h hh
        omega
      rw [hrest]
    · have hpa : p a = false := by
        by_cases hpa' : p a = true
        · exfalso
          have h1 := huni a (List.mem_cons_self _ _) hpa'
          have h2 := hpair.1 hstar hm'
          omega
        · exact Bool.eq_false_iff.2 hpa'
      rw [List.filter_cons, hpa]
      show rest.filter p = [hstar]
      exact ih hpair.2 hm' hp (fun h hh hph => huni h (List.mem_cons_of_mem _ hh) hph)

theorem mem_deletes_fold_none (idx : Index) :
    ∀ (hs : List Hint) (acc : List (List Nat × Nat)),
      (∀ p ∈ acc, alookup p.1 idx = none) →
      ∀ p ∈ hs.foldl (deletesStep idx) acc, alookup p.1 idx = none := by
  intro hs
  induction hs with
  | nil => intro acc hacc; exact hacc
  | cons h rest ih =>
    intro acc hacc
    refine ih (deletesStep idx acc h) ?_
    intro p hp
    unfold deletesStep at hp
    by_cases hc : h.deleted = true ∧ alookup h.key idx = none
    · rw [if_pos (by simpa using hc)] at hp
      cases hm : alookup h.key acc with
      | some q =>
        rw [hm] at hp
        by_cases hq : q < h.sequence
        · have hp' : p ∈ ainsert h.key h.sequence acc := by simpa [hq] using hp
          rcases mem_ainsert hp' with rfl | hp''
          · exact hc.2
          · exact hacc p hp''
        · have hp' : p ∈ acc := by simpa [hq] using hp
          exact hacc p hp'
      | none =>
        rw [hm] at hp
        rcases mem_ainsert hp with rfl | hp'
        · exact hc.2
        · exact hacc p hp'
    · rw [if_neg (by simpa using hc)] at hp
      exact hacc p hp

theorem mem_copies_hint (s : CaskState) (fid : Nat) {e : Entry}
    (he : e ∈ (hintsOf (s.log.getFile fid)).filterMap
      (fun h => if keepHint s.index h then s.log.read_entry fid h.entry_pos else none)) :
    ∃ h ∈ hintsOf (s.log.getFile fid), Hint.ofEntry e h.entry_pos = h ∧
      readAt (s.log.getFile fid) h.entry_pos = some e ∧ keepHint s.index h = true := by
  obtain ⟨h, hh, hf⟩ := List.mem_filterMap.1 he
  by_cases hk : keepHint s.index h = true
  · rw [if_pos hk] at hf
    obtain ⟨e', hr', ho'⟩ := hintsOf_read hh
    have hre : readAt (s.log.getFile fid) h.entry_pos = some e := hf
    rw [hre] at hr'
    have hee : e' = e := (Option.some.inj hr').symm
    subst hee
    exact ⟨h, hh, ho', hre, hk⟩
  · rw [if_neg hk] at hf
    cases hf

theorem filterMap_filter_exchange (f : Hint → Option Entry) (p : Hint → Bool) (k : List Nat) :
    ∀ (l : List Hint), (∀ h ∈ l, ∀ e, f h = some e → e.key = h.key) →
      (l.filterMap (fun h => if p h then f h else none)).filter
        (fun e => decide (e.key = k)) =
      (l.filter (fun h => p h && decide (h.key = k))).filterMap f := by
  intro l
  induction l with
  | nil => intro _; rfl
  | cons h rest ih =>
    intro hkey
    have hrest := fun h' hh' => hkey h' (List.mem_cons_of_mem _ hh')
    by_cases hp : p h = true
    · cases hf : f h with
      | some e =>
        have hek : e.key = h.key := hkey h (List.mem_cons_self _ _) e hf
        by_cases hkk : h.key = k
        · rw [List.filterMap_cons, if_pos hp, hf, List.filter_cons,
            if_pos (by simp [hek, hkk]), List.filter_cons, if_pos (by simp [hp, hkk]),
            List.filterMap_cons, hf, ih hrest]
        · rw [List.filterMap_cons, if_pos hp, hf, List.filter_cons,
            if_neg (by simp [hek, hkk]), List.filter_cons, if_neg (by simp [hkk]),
            ih hrest]
      | none =>
        by_cases hkk : h.key = k
        · rw [List.filterMap_cons, if_pos hp, hf, List.filter_cons,
            if_pos (by simp [hp, hkk]), List.filterMap_cons, hf, ih hrest]
        · rw [List.filterMap_cons, if_pos hp, hf, List.filter_cons,
            if_neg (by simp [hkk]), ih hrest]
    · rw [List.filterMap_cons, if_neg hp, List.filter_cons,
        if_neg (by simp [Bool.eq_false_iff.2 hp]), ih hrest]

end Cask

namespace Cask

/-- C2: compaction invariance — on a well-formed engine state, compacting a
sealed segment leaves the result of `get` unchanged for every key, with no
interleaved mutations. -/
theorem C2_compaction_invariance (s : CaskState) (id : Nat) (k : List Nat)
    (hid : id ∈ s.log.files) (hinv : Inv2 s) :
    (s.compact id).get k = s.get k := by
  obtain ⟨hdom, hact, hfb, hhf, hok, huniq⟩ := hinv
  have hidc : id ≤ s.log.current_file_id := hfb id hid
  have hhints : s.log.hints id = some (hintsOf (s.log.getFile id)) := by
    unfold Log.hints
    rw [if_pos (hhf id hid)]
  have hcf : s.compact_file id =
      (some (s.log.current_file_id + 1),
       { s with log :=
          { s.log with
              current_file_id := s.log.current_file_id + 1,
              store := ainsert (s.log.current_file_id + 1)
                (compactEntries s id (hintsOf (s.log.getFile id)))
                s.log.store,
              hintFiles := (s.log.current_file_id + 1) :: s.log.hintFiles } }) := by
    unfold CaskState.compact_file
    rw [hhints]
    rfl
  have hhints2 : Log.hints
      { s.log with
          current_file_id := s.log.current_file_id + 1,
          store := ainsert (s.log.current_file_id + 1)
            (compactEntries s id (hintsOf (s.log.getFile id)))
            s.log.store,
          hintFiles := (s.log.current_file_id + 1) :: s.log.hintFiles }
      (s.log.current_file_id + 1)
      = some (hintsOf (compactEntries s id (hintsOf (s.log.getFile id)))) := by
    unfold Log.hints
    rw [if_pos (List.mem_cons_self _ _)]
    show some (hintsOf ((alookup _ (ainsert _ _ _)).getD [])) = _
    rw [alookup_ainsert_self]
    rfl
  unfold CaskState.compact
  simp only [hcf]
  simp only [hhints2]
  cases hl : alookup k s.index with
  | none =>
    have halldel : ∀ h ∈ (hintsOf (compactEntries s id (hintsOf (s.log.getFile id)))).filter
        (fun h => decide (h.key = k)), h.deleted = true := by
      intro h hh
      obtain ⟨hh', hdk⟩ := List.mem_filter.1 hh
      rw [decide_eq_true_eq] at hdk
      refine hintsFrom_key_deleted k ?_ 0 h hh' hdk
      intro e he hek
      rcases List.mem_append.1 he with hec | het
      · obtain ⟨ie, hie, _⟩ := (mem_copies s id hec).2
        rw [hek, hl] at hie
        cases hie
      · obtain ⟨p, hp, rfl⟩ := List.mem_map.1 het
        rfl
    have hfold : alookup k
        ((hintsOf (compactEntries s id (hintsOf (s.log.getFile id)))).foldl
          (fun i h => Index.update i h (s.log.current_file_id + 1)) s.index) = none := by
      rw [alookup_update_fold, hl]
      exact lupd_fold_none_all_deleted _ _ halldel
    simp only [CaskState.get, hfold, hl]
  | some ie =>
    have hmem := alookup_mem hl
    have hko := hok _ hmem
    obtain ⟨estar, hre, hkey, hdel, hseq⟩ := hko
    have htombfil : ((buildDeletes s.index (hintsOf (s.log.getFile id))).map
        (fun p => Entry.mkDeleted p.2 p.1)).filter (fun e => decide (e.key = k)) = [] := by
      rw [List.filter_eq_nil_iff]
      intro e he hd
      obtain ⟨p, hp, rfl⟩ := List.mem_map.1 he
      rw [decide_eq_true_eq] at hd
      have hd' : p.1 = k := hd
      have hn := mem_deletes_fold_none s.index (hintsOf (s.log.getFile id)) []
        (by intro p' hp'; simp at hp') p hp
      rw [hd', hl] at hn
      cases hn
    have hsplit : compactEntries s id (hintsOf (s.log.getFile id)) =
        (hintsOf (s.log.getFile id)).filterMap
          (fun h => if keepHint s.index h then s.log.read_entry id h.entry_pos else none) ++
        (buildDeletes s.index (hintsOf (s.log.getFile id))).map
          (fun p => Entry.mkDeleted p.2 p.1) := rfl
    by_cases hfid : ie.file_id = id
    · -- the indexed record lives in the compacted segment: it is copied
      have hre' : readAt (s.log.getFile id) ie.entry_pos = some estar := by
        rw [← hfid]
        exact hre
      have hhstar : Hint.ofEntry estar ie.entry_pos ∈ hintsOf (s.log.getFile id) :=
        read_hintsOf hre'
      have hkeep : keepHint s.index (Hint.ofEntry estar ie.entry_pos) = true := by
        simp only [keepHint, Hint.ofEntry, Bool.and_eq_true, Bool.not_eq_true']
        refine ⟨hdel, ?_⟩
        rw [hkey, hl]
        simp [hseq]
      have hsing : (hintsOf (s.log.getFile id)).filter
          (fun h => keepHint s.index h && decide (h.key = k)) =
          [Hint.ofEntry estar ie.entry_pos] := by
        refine filter_singleton_of_unique (hintsFrom_pos_pairwise _ 0) hhstar ?_ ?_
        · rw [Bool.and_eq_true]
          refine ⟨hkeep, ?_⟩
          simp [Hint.ofEntry, hkey]
        · intro h hh hph
          rw [Bool.and_eq_true] at hph
          obtain ⟨hkp, hdk⟩ := hph
          rw [decide_eq_true_eq] at hdk
          simp only [keepHint, Bool.and_eq_true, Bool.not_eq_true'] at hkp
          obtain ⟨hhd, hmatch⟩ := hkp
          rw [hdk, hl] at hmatch
          simp only [decide_eq_true_eq] at hmatch
          have huq := huniq id hid h hh hhd ie (by rw [hdk]; exact hl) hmatch
          exact huq.2.symm
      have hkeys : ∀ h ∈ hintsOf (s.log.getFile id), ∀ e,
          s.log.read_entry id h.entry_pos = some e → e.key = h.key := by
        intro h hh e hfe
        obtain ⟨e2, hr2, ho2⟩ := hintsOf_read hh
        have hfe' : readAt (s.log.getFile id) h.entry_pos = some e := hfe
        rw [hfe'] at hr2
        have he2 : e2 = e := (Option.some.inj hr2).symm
        subst he2
        rw [← ho2]
        rfl
      have hx := filterMap_filter_exchange (fun h => s.log.read_entry id h.entry_pos)
        (fun h => keepHint s.index h) k (hintsOf (s.log.getFile id)) hkeys
      have hre2 : s.log.read_entry id (Hint.ofEntry estar ie.entry_pos).entry_pos =
          some estar := hre'
      have hcopfil : ((hintsOf (s.log.getFile id)).filterMap
          (fun h => if keepHint s.index h then s.log.read_entry id h.entry_pos else none)).filter
          (fun e => decide (e.key = k)) = [estar] := by
        rw [hx, hsing]
        simp [List.filterMap_cons, hre2]
      have hnlfil : (compactEntries s id (hintsOf (s.log.getFile id))).filter
          (fun e => decide (e.key = k)) = [estar] := by
        rw [hsplit, List.filter_append, hcopfil, htombfil]
        rfl
      obtain ⟨p0, _, hhfil0, hread0⟩ := hints_filter_key_singleton k
        (compactEntries s id (hintsOf (s.log.getFile id))) 0 estar hnlfil
      have hhfil : (hintsOf (compactEntries s id (hintsOf (s.log.getFile id)))).filter
          (fun h => decide (h.key = k)) = [Hint.ofEntry estar p0] := hhfil0
      have hreadnl : readAt (compactEntries s id (hintsOf (s.log.getFile id))) p0 =
          some estar := by simpa using hread0
      have hfold : alookup k
          ((hintsOf (compactEntries s id (hintsOf (s.log.getFile id)))).foldl
            (fun i h => Index.update i h (s.log.current_file_id + 1)) s.index) =
          some ⟨s.log.current_file_id + 1, p0, estar.size, ie.sequence⟩ := by
        rw [alookup_update_fold, hl, hhfil]
        show lupd (s.log.current_file_id + 1) (some ie) (Hint.ofEntry estar p0) = _
        simp [lupd, Hint.ofEntry, hseq, hdel]
      have hrd2 : (Log.swap_file id (s.log.current_file_id + 1)
          { s.log with
              current_file_id := s.log.current_file_id + 1,
              store := ainsert (s.log.current_file_id + 1)
                (compactEntries s id (hintsOf (s.log.getFile id))) s.log.store,
              hintFiles := (s.log.current_file_id + 1) :: s.log.hintFiles }).read_entry
          (s.log.current_file_id + 1) p0 = some estar := by
        show readAt ((alookup (s.log.current_file_id + 1)
          (aerase id (ainsert (s.log.current_file_id + 1)
            (compactEntries s id (hintsOf (s.log.getFile id))) s.log.store))).getD []) p0 =
          some estar
        rw [alookup_aerase_ne _ (by omega : id ≠ s.log.current_file_id + 1),
          alookup_ainsert_self]
        exact hreadnl
      have hreN : s.log.read_entry ie.file_id ie.entry_pos = some estar := hre
      simp only [CaskState.get, hfold, hl, hrd2, hreN]
    · -- the indexed record lives elsewhere: nothing with key k is rewritten
      have hfb2 : ie.file_id ≤ s.log.current_file_id := read_entry_fid_bound s hdom hre
      have hcop : ∀ e ∈ (hintsOf (s.log.getFile id)).filterMap
          (fun h => if keepHint s.index h then s.log.read_entry id h.entry_pos else none),
          e.key ≠ k := by
        intro e he hek
        obtain ⟨h, hh, ho, hrd, hkeep⟩ := mem_copies_hint s id he
        have hhk : h.key = k := by
          rw [← ho]
          exact hek
        simp only [keepHint, Bool.and_eq_true, Bool.not_eq_true'] at hkeep
        obtain ⟨hhd, hmatch⟩ := hkeep
        rw [hhk, hl] at hmatch
        simp only [decide_eq_true_eq] at hmatch
        have huq := huniq id hid h hh hhd ie (by rw [hhk]; exact hl) hmatch
        exact hfid huq.1
      have hcopfil : ((hintsOf (s.log.getFile id)).filterMap
          (fun h => if keepHint s.index h then s.log.read_entry id h.entry_pos else none)).filter
          (fun e => decide (e.key = k)) = [] := by
        rw [List.filter_eq_nil_iff]
        intro e he hd
        rw [decide_eq_true_eq] at hd
        exact hcop e he hd
      have hnlfil : (compactEntries s id (hintsOf (s.log.getFile id))).filter
          (fun e => decide (e.key = k)) = [] := by
        rw [hsplit, List.filter_append, hcopfil, htombfil]
        rfl
      have hhfil : (hintsOf (compactEntries s id (hintsOf (s.log.getFile id)))).filter
          (fun h => decide (h.key = k)) = [] :=
        hints_filter_key_nil k (compactEntries s id (hintsOf (s.log.getFile id))) 0 hnlfil
      have hfold : alookup k
          ((hintsOf (compactEntries s id (hintsOf (s.log.getFile id)))).foldl
            (fun i h => Index.update i h (s.log.current_file_id + 1)) s.index) =
          some ie := by
        rw [alookup_update_fold, hl, hhfil]
        rfl
      have hrd2 : (Log.swap_file id (s.log.current_file_id + 1)
          { s.log with
              current_file_id := s.log.current_file_id + 1,
              store := ainsert (s.log.current_file_id + 1)
                (compactEntries s id (hintsOf (s.log.getFile id))) s.log.store,
              hintFiles := (s.log.current_file_id + 1) :: s.log.hintFiles }).read_entry
          ie.file_id ie.entry_pos = some estar := by
        show readAt ((alookup ie.file_id
          (aerase id (ainsert (s.log.current_file_id + 1)
            (compactEntries s id (hintsOf (s.log.getFile id))) s.log.store))).getD [])
          ie.entry_pos = some estar
        rw [alookup_aerase_ne _ (Ne.symm hfid),
          alookup_ainsert_ne _ _ (by omega : s.log.current_file_id + 1 ≠ ie.file_id)]
        exact hre
      have hreN : s.log.read_entry ie.file_id ie.entry_pos = some estar := hre
      simp only [CaskState.get, hfold, hl, hrd2, hreN]

end Cask

namespace Cask

theorem C2_compaction_invariance_witness :
    (c2State.compact 0).get [1] = c2State.get [1] :=
  C2_compaction_invariance c2State 0 [1] (by decide) (by
    refine ⟨by decide, by decide, by decide, by decide, ?_, ?_⟩
    · intro p hp
      have hp' : p ∈ [(([1] : List Nat), (⟨0, 0, 21, 1⟩ : IndexEntry))] := hp
      rw [List.mem_singleton] at hp'
      subst hp'
      exact ⟨Entry.mkLive 1 [1] [5], rfl, rfl, rfl, rfl⟩
    · intro id2 hid2 h hh hd ie hie hsq
      have hid2' : id2 ∈ [0] := hid2
      rw [List.mem_singleton] at hid2'
      subst hid2'
      have hh' : h ∈ [(⟨1, false, [1], 0, 21⟩ : Hint)] := hh
      rw [List.mem_singleton] at hh'
      subst hh'
      have hie' : some (⟨0, 0, 21, 1⟩ : IndexEntry) = some ie := hie
      injection hie' with hie''
      subst hie''
      exact ⟨rfl, rfl⟩)

end Cask
